import Mathlib

/-!
# Greedy file-to-node allocation (`solution.cxx`)

A shallow embedding of the allocation core of `solution.cxx` and of its record
reader, followed by theorems about them.

Conventions of the embedding.

* `std::vector<T>` is a `List T`; the unchecked `operator[]` is `List.getD`
  with a default and an element store is `List.set`.  Every index the
  program uses is shown to be in range, so the default is never observed.
* `std::size_t` is a natural number below `SIZE_MOD = 2 ^ 64`; the additions
  and subtractions of the source are written with their wrap-around.
* The `while (not found)` loop of `findNewPositionInRange` is run with fuel;
  `none` stands for a loop that has not finished within the fuel.
* `std::sort` is library code: `allocateNodes` takes the sorting routine as an
  argument and the theorems assume only `StdSortContract`, the postcondition
  the C++ standard gives for a strict weak order.  `stdSort` is one
  executable routine that meets it.
-/

namespace Solution

/-! ## Entities (source lines 14-64) -/

/-- Modulus of `std::size_t` arithmetic. -/
def SIZE_MOD : Nat := 2 ^ 64

/-- Unsigned addition of two `std::size_t` values. -/
def addSize (a b : Nat) : Nat := (a + b) % SIZE_MOD

/-- Unsigned subtraction of two `std::size_t` values. -/
def subSize (a b : Nat) : Nat := (a + (SIZE_MOD - b % SIZE_MOD)) % SIZE_MOD

/-- Class `File`: a name and a size. -/
structure File where
  name : String
  size : Nat
  deriving DecidableEq

/-- Class `Node`: a name, a size and the two separately stored counters. -/
structure Node where
  name : String
  size : Nat
  occupiedMemory : Nat
  freeMemory : Nat
  deriving DecidableEq

instance : Inhabited Node := ⟨⟨"", 0, 0, 0⟩⟩
instance : Inhabited File := ⟨⟨"", 0⟩⟩

/-- Constructor `Node(name, size)`: nothing occupied, everything free. -/
def Node.new (name : String) (size : Nat) : Node :=
  { name := name, size := size, occupiedMemory := 0, freeMemory := size }

/-- Method `Node::canAccept`, `file.size() <= freeMemory()`. -/
def Node.canAccept (node : Node) (file : File) : Bool :=
  decide (file.size ≤ node.freeMemory)

/-- Method `Node::add`: `m_occupiedMemory += size; m_freeMemory -= size`. -/
def Node.add (node : Node) (file : File) : Node :=
  { node with
    occupiedMemory := addSize node.occupiedMemory file.size
    freeMemory := subSize node.freeMemory file.size }

/-! ## Comparators (source lines 259-271) -/

/-- Lambda `compareFiles`: strictly larger size first. -/
def compareFiles (listOfFiles : List File) (elA elB : Nat) : Bool :=
  decide ((listOfFiles.getD elA default).size > (listOfFiles.getD elB default).size)

/-- Lambda `compareNodes`: less occupied first, then more free first. -/
def compareNodes (listOfNodes : List Node) (elA elB : Nat) : Bool :=
  let NodeA := listOfNodes.getD elA default
  let NodeB := listOfNodes.getD elB default
  if NodeA.occupiedMemory < NodeB.occupiedMemory then true
  else if NodeA.occupiedMemory > NodeB.occupiedMemory then false
  else decide (NodeA.freeMemory > NodeB.freeMemory)

/-! ## Order maintenance (source lines 308-342) -/

/-- The `while (not found)` loop of `findNewPositionInRange`, one iteration per
unit of fuel; the arguments after the fuel are the current `up` and `output`. -/
def findLoop (Comparator : Nat → Nat → Bool) (collection : List Nat) (dw : Nat) :
    Nat → Nat → Nat → Option Nat
  | 0, _, _ => none
  | fuel + 1, up, output =>
    let mp := addSize output up / 2
    let up1 := if Comparator (collection.getD dw 0) (collection.getD mp 0) then mp else up
    let output1 := if Comparator (collection.getD dw 0) (collection.getD mp 0) then output else mp
    if subSize up1 output1 ≤ 1 then some output1
    else findLoop Comparator collection dw fuel up1 output1

/-- Function `findNewPositionInRange(dw, up, collection, Comparator)`, run with
the given fuel. -/
def findNewPositionInRange (fuel dw up : Nat) (collection : List Nat)
    (Comparator : Nat → Nat → Bool) : Option Nat :=
  findLoop Comparator collection dw fuel up dw

/-- The same loop with a record of what each iteration does: the index `mp` at
which the collection is read (next to the fixed index `dw`) and the values of
`up` and `output` whose difference is tested, in that order. -/
def findLoopTrace (Comparator : Nat → Nat → Bool) (collection : List Nat) (dw : Nat) :
    Nat → Nat → Nat → List (Nat × Nat × Nat)
  | 0, _, _ => []
  | fuel + 1, up, output =>
    let mp := addSize output up / 2
    let up1 := if Comparator (collection.getD dw 0) (collection.getD mp 0) then mp else up
    let output1 := if Comparator (collection.getD dw 0) (collection.getD mp 0) then output else mp
    (mp, up1, output1) ::
      (if subSize up1 output1 ≤ 1 then []
       else findLoopTrace Comparator collection dw fuel up1 output1)

/-- The `for (m = current; m < target; m++) collection[m] = collection[m+1]`
loop of `swap`: `count` iterations starting at `m`. -/
def shiftLoop : List Nat → Nat → Nat → List Nat
  | collection, 0, _ => collection
  | collection, count + 1, m =>
    shiftLoop (collection.set m (collection.getD (m + 1) 0)) count (m + 1)

/-- Function `swap(collection, current, target)`. -/
def swap (collection : List Nat) (current target : Nat) : List Nat :=
  if current = target then collection
  else
    let storage := collection.getD current 0
    (shiftLoop collection (target - current) current).set target storage

/-! ## The allocation pass (source lines 248-306) -/

/-- The data `allocateNodes` mutates: the nodes, the assignment map and the
node order sequence. -/
structure State where
  listOfNodes : List Node
  distributionPlan : List Nat
  indexes_nodes : List Nat
  deriving DecidableEq

/-- The scan of the inner `for` loop: starting at position `j` with `count`
positions left, the first position whose node accepts the file (the positions
before it take the `continue`). -/
def scanNodes (listOfNodes : List Node) (indexes_nodes : List Nat) (file : File) :
    Nat → Nat → Option Nat
  | 0, _ => none
  | count + 1, j =>
    if !(listOfNodes.getD (indexes_nodes.getD j 0) default).canAccept file then
      scanNodes listOfNodes indexes_nodes file count (j + 1)
    else some j

/-- The body of the inner loop at an accepting position `j` (source lines
294-303): add the file, record the node, reposition the node. -/
def placeAt (file : File) (idx_f : Nat) (s : State) (j : Nat) : Option State :=
  let idex_n_current := s.indexes_nodes.getD j 0
  let node := s.listOfNodes.getD idex_n_current default
  let listOfNodes1 := s.listOfNodes.set idex_n_current (node.add file)
  let distributionPlan1 := s.distributionPlan.set idx_f idex_n_current
  match findNewPositionInRange s.indexes_nodes.length j s.indexes_nodes.length
      s.indexes_nodes (compareNodes listOfNodes1) with
  | none => none
  | some new_pos =>
    some { listOfNodes := listOfNodes1
           distributionPlan := distributionPlan1
           indexes_nodes := swap s.indexes_nodes j new_pos }

/-- One iteration of the outer loop, for the file with index `idx_f`. -/
def allocStep (listOfFiles : List File) (idx_f : Nat) (s : State) : Option State :=
  let file := listOfFiles.getD idx_f default
  match scanNodes s.listOfNodes s.indexes_nodes file s.indexes_nodes.length 0 with
  | none => some s
  | some j => placeAt file idx_f s j

/-- The node the iteration for file `idx_f` places the file into, if the scan
finds one. -/
def chosenNode (listOfFiles : List File) (idx_f : Nat) (s : State) : Option Nat :=
  match scanNodes s.listOfNodes s.indexes_nodes (listOfFiles.getD idx_f default)
      s.indexes_nodes.length 0 with
  | none => none
  | some j => some (s.indexes_nodes.getD j 0)

/-- The outer loop `for (idx_f : indexes_files)`. -/
def allocLoop (listOfFiles : List File) : List Nat → State → Option State
  | [], s => some s
  | idx_f :: rest, s =>
    match allocStep listOfFiles idx_f s with
    | none => none
    | some s1 => allocLoop listOfFiles rest s1

/-- The total size of the files that the outer loop, run over the file indices
`l` from state `s`, places into node `y`: the files whose scan finds `y`. -/
def placedSize (listOfFiles : List File) (y : Nat) : List Nat → State → Nat
  | [], _ => 0
  | idx_f :: rest, s =>
    (if chosenNode listOfFiles idx_f s = some y then (listOfFiles.getD idx_f default).size
     else 0) +
    match allocStep listOfFiles idx_f s with
    | none => 0
    | some s1 => placedSize listOfFiles y rest s1

/-- The file order sequence: `iota` then `sort` under `compareFiles`. -/
def sortedFiles (sort : (Nat → Nat → Bool) → List Nat → List Nat)
    (listOfFiles : List File) : List Nat :=
  sort (compareFiles listOfFiles) (List.range listOfFiles.length)

/-- The state at the head of the outer loop: the node order sequence is `iota`
then `sort` under `compareNodes`. -/
def initState (sort : (Nat → Nat → Bool) → List Nat → List Nat)
    (distributionPlan : List Nat) (listOfNodes : List Node) : State :=
  { listOfNodes := listOfNodes
    distributionPlan := distributionPlan
    indexes_nodes := sort (compareNodes listOfNodes) (List.range listOfNodes.length) }

/-- The state of `allocateNodes` after the first `k` iterations of the outer
loop. -/
def allocateNodesUpTo (sort : (Nat → Nat → Bool) → List Nat → List Nat)
    (distributionPlan : List Nat) (listOfFiles : List File) (listOfNodes : List Node)
    (k : Nat) : Option State :=
  allocLoop listOfFiles ((sortedFiles sort listOfFiles).take k)
    (initState sort distributionPlan listOfNodes)

/-- Function `allocateNodes(distributionPlan, listOfFiles, listOfNodes)`. -/
def allocateNodes (sort : (Nat → Nat → Bool) → List Nat → List Nat)
    (distributionPlan : List Nat) (listOfFiles : List File) (listOfNodes : List Node) :
    Option State :=
  allocLoop listOfFiles (sortedFiles sort listOfFiles)
    (initState sort distributionPlan listOfNodes)

/-! ## The part of `main` around the pass (source lines 152-171) -/

/-- The assignment map as `main` creates it: one entry per file, each equal to
the number of files. -/
def initialPlan (listOfFiles : List File) : List Nat :=
  List.replicate listOfFiles.length listOfFiles.length

/-- The pass as `main` runs it. -/
def mainAllocate (sort : (Nat → Nat → Bool) → List Nat → List Nat)
    (listOfFiles : List File) (listOfNodes : List Node) : Option State :=
  allocateNodes sort (initialPlan listOfFiles) listOfFiles listOfNodes

/-- What `stream << message.c_str()` writes: the characters of the message
before its first NUL byte. -/
def c_str (message : String) : String :=
  String.mk (message.data.takeWhile fun c => decide (c.toNat ≠ 0))

/-- One output line of `main`, as written through `message.c_str()`: the file
name, a blank, and `NULL` or the name of the node; `none` when
`listOfNodes.at` would throw. -/
def reportLine (listOfFiles : List File) (listOfNodes : List Node) (file : File)
    (n_node : Nat) : Option String :=
  if n_node = listOfFiles.length then some (c_str (file.name ++ " " ++ "NULL"))
  else
    match listOfNodes.get? n_node with
    | none => none
    | some node => some (c_str (file.name ++ " " ++ node.name))

/-- The output loop of `main` over the assignment map. -/
def report (listOfFiles : List File) (listOfNodes : List Node)
    (distributionPlan : List Nat) : List (Option String) :=
  (List.range distributionPlan.length).map fun n_file =>
    reportLine listOfFiles listOfNodes (listOfFiles.getD n_file default)
      (distributionPlan.getD n_file 0)

/-! ## The record reader (source lines 192-246) -/

/-- Whitespace of the C locale, as `operator>>` and `std::stoi` skip it: blank,
tab, line feed, vertical tab, form feed, carriage return. -/
def isspace (c : Char) : Bool :=
  decide (c.toNat = 32) || (decide (9 ≤ c.toNat) && decide (c.toNat ≤ 13))

/-- A decimal digit. -/
def isdigit (c : Char) : Bool :=
  decide (48 ≤ c.toNat) && decide (c.toNat ≤ 57)

/-- The lines `std::getline` delivers: the text is cut at every line feed, and a
last line without a line feed is delivered when it is not empty. -/
def getlines : List Char → List Char → List (List Char)
  | [], [] => []
  | [], c :: cur => [(c :: cur).reverse]
  | c :: cs, cur =>
    if c.toNat = 10 then cur.reverse :: getlines cs [] else getlines cs (c :: cur)

/-- One `iss >> word`: skip whitespace, then read up to the next whitespace;
the word is empty when nothing is left.  Returns the word and the rest. -/
def readWord (cs : List Char) : List Char × List Char :=
  let cs1 := cs.dropWhile isspace
  (cs1.takeWhile fun c => !isspace c, cs1.dropWhile fun c => !isspace c)

/-- The value of a run of decimal digits. -/
def digitsValue (ds : List Char) : Nat :=
  ds.foldl (fun acc d => 10 * acc + (d.toNat - 48)) 0

/-- Library function `std::stoi(str)`: skip whitespace, read an optional sign
and the longest run of decimal digits, ignore what follows; `none` stands for
the exception thrown when there is no digit or the value does not fit an `int`. -/
def stoi (str : List Char) : Option Int :=
  let cs := str.dropWhile isspace
  let negative := decide (cs.head? = some '-')
  let body := if cs.head? = some '-' ∨ cs.head? = some '+' then cs.tail else cs
  let digits := body.takeWhile isdigit
  if digits = [] then none
  else
    let value : Int := if negative then - (digitsValue digits : Int) else digitsValue digits
    if value < -2147483648 ∨ 2147483647 < value then none else some value

/-- The `while (std::getline ...)` loop of `processFile` with its `try` block:
the flag returned and the collection as it stands on return. -/
def processLines {T : Type} (mk : String → Nat → T) :
    List (List Char) → List T → Bool × List T
  | [], objectCollection => (true, objectCollection)
  | line :: rest, objectCollection =>
    if line.head? = some '#' then processLines mk rest objectCollection
    else
      let name := (readWord line).1
      let size := (readWord (readWord line).2).1
      let otherArgument := (readWord (readWord (readWord line).2).2).1
      if name = [] then processLines mk rest objectCollection
      else if otherArgument ≠ [] then (false, objectCollection)
      else
        match stoi size with
        | none => (false, objectCollection)
        | some sizeInt =>
          if sizeInt < 0 then (false, objectCollection)
          else processLines mk rest (objectCollection ++ [mk (String.mk name) sizeInt.toNat])

/-- Function `processFile<T>(fileName, objectCollection)`: `content` is the
text of the file, `none` when it cannot be opened; `mk` is the constructor
`T(name, size)`. -/
def processFile {T : Type} (mk : String → Nat → T) (content : Option String)
    (objectCollection : List T) : Bool × List T :=
  match content with
  | none => (false, objectCollection)
  | some text => processLines mk (getlines text.data []) objectCollection

/-! ## A sorting routine meeting the contract of `std::sort` -/

/-- Insert `a` into a list, behind the elements that precede it. -/
def sortInsert (lt : Nat → Nat → Bool) (a : Nat) : List Nat → List Nat
  | [] => [a]
  | b :: l => if lt b a then b :: sortInsert lt a l else a :: b :: l

/-- An executable sorting routine (insertion sort). -/
def stdSort (lt : Nat → Nat → Bool) : List Nat → List Nat
  | [] => []
  | a :: l => sortInsert lt a (stdSort lt l)

/-- The comparator is a strict weak order. -/
def StrictWeak (lt : Nat → Nat → Bool) : Prop :=
  (∀ a, lt a a = false) ∧
  (∀ a b c, lt a b = true → lt b c = true → lt a c = true) ∧
  (∀ a b c, lt a b = false → lt b c = false → lt a c = false)

/-- The list is sorted under the comparator: no later element precedes an
earlier one. -/
def SortedBy (lt : Nat → Nat → Bool) (l : List Nat) : Prop :=
  l.Pairwise fun a b => lt b a = false

/-- The postcondition of `std::sort` for a strict weak order: the result is a
rearrangement of the input and is sorted. -/
def StdSortContract (sort : (Nat → Nat → Bool) → List Nat → List Nat) : Prop :=
  ∀ lt l, StrictWeak lt → (sort lt l).Perm l ∧ SortedBy lt (sort lt l)

/-! ## Well-formed inputs and states -/

/-- The nodes as `main` hands them over: built by the constructor `Node(name,
size)` (nothing occupied, everything free) from a `std::size_t` size. -/
def FreshNodes (listOfNodes : List Node) : Prop :=
  ∀ node ∈ listOfNodes,
    node.occupiedMemory = 0 ∧ node.freeMemory = node.size ∧ node.size < SIZE_MOD

/-- The invariant of the outer loop over `N` nodes: the node order sequence is
a rearrangement of `0..N-1` sorted under `compareNodes`, and the two counters
of every node add up to its `std::size_t` size. -/
structure WellFormed (N : Nat) (s : State) : Prop where
  length_nodes : s.listOfNodes.length = N
  perm : s.indexes_nodes.Perm (List.range N)
  sorted : SortedBy (compareNodes s.listOfNodes) s.indexes_nodes
  memory : ∀ node ∈ s.listOfNodes,
    node.occupiedMemory + node.freeMemory = node.size ∧ node.size < SIZE_MOD

/-- The node at position `j` of the order sequence accepts the file. -/
def acceptsAt (s : State) (file : File) (j : Nat) : Bool :=
  (s.listOfNodes.getD (s.indexes_nodes.getD j 0) default).canAccept file

/-- The sum of the sizes of the files whose entry in the assignment map equals
`k`. -/
def assignedSize (listOfFiles : List File) (distributionPlan : List Nat) (k : Nat) : Nat :=
  (((List.range distributionPlan.length).filter fun i =>
      decide (distributionPlan.getD i 0 = k)).map fun i =>
      (listOfFiles.getD i default).size).sum

/-! ## Scenario data -/

/-- Nodes of scenario 1. -/
def nodesAB : List Node := [Node.new "A" 10, Node.new "B" 5]

/-- Files of scenario 1. -/
def filesXY : List File := [⟨"X", 6⟩, ⟨"Y", 4⟩]

/-- One file `X` of size 6. -/
def filesX : List File := [⟨"X", 6⟩]

/-- One file `Z` of size 0. -/
def filesZ : List File := [⟨"Z", 0⟩]

/-- Nodes `A(5)`, `B(10)`: only the node with index 1 has room for `X`. -/
def nodesSmallBig : List Node := [Node.new "A" 5, Node.new "B" 10]

/-- Nodes `A(5)`, `B(4)`: no node has room for `X`. -/
def nodesTooSmall : List Node := [Node.new "A" 5, Node.new "B" 4]

/-! ## Arithmetic of `std::size_t` -/

theorem SIZE_MOD_eq : SIZE_MOD = 18446744073709551616 := by decide

theorem addSize_eq {a b : Nat} (h : a + b < SIZE_MOD) : addSize a b = a + b := by
  unfold addSize
  exact Nat.mod_eq_of_lt h

theorem subSize_eq {a b : Nat} (hb : b ≤ a) (ha : a < SIZE_MOD) : subSize a b = a - b := by
  unfold subSize
  have hb' : b % SIZE_MOD = b := Nat.mod_eq_of_lt (by omega)
  rw [hb']
  have h1 : a + (SIZE_MOD - b) = (a - b) + SIZE_MOD := by omega
  rw [h1, Nat.add_mod_right]
  exact Nat.mod_eq_of_lt (by omega)

/-! ## The comparators are strict weak orders -/

theorem compareNodes_eq_true (nodes : List Node) (a b : Nat) :
    compareNodes nodes a b = true ↔
      (nodes.getD a default).occupiedMemory < (nodes.getD b default).occupiedMemory ∨
      ((nodes.getD a default).occupiedMemory = (nodes.getD b default).occupiedMemory ∧
        (nodes.getD b default).freeMemory < (nodes.getD a default).freeMemory) := by
  unfold compareNodes
  simp only []
  split_ifs with h1 h2
  · exact iff_of_true rfl (Or.inl h1)
  · simp only [Bool.false_eq_true, false_iff]; omega
  · simp only [decide_eq_true_eq]; omega

theorem compareNodes_eq_false (nodes : List Node) (a b : Nat) :
    compareNodes nodes a b = false ↔
      (nodes.getD b default).occupiedMemory < (nodes.getD a default).occupiedMemory ∨
      ((nodes.getD a default).occupiedMemory = (nodes.getD b default).occupiedMemory ∧
        (nodes.getD a default).freeMemory ≤ (nodes.getD b default).freeMemory) := by
  rw [← Bool.not_eq_true, compareNodes_eq_true]
  omega

theorem compareNodes_strictWeak (nodes : List Node) : StrictWeak (compareNodes nodes) := by
  refine ⟨?_, ?_, ?_⟩
  · intro a
    rw [compareNodes_eq_false]; omega
  · intro a b c
    simp only [compareNodes_eq_true]; omega
  · intro a b c
    simp only [compareNodes_eq_false]; omega

theorem compareFiles_strictWeak (files : List File) : StrictWeak (compareFiles files) := by
  refine ⟨?_, ?_, ?_⟩
  · intro a; simp [compareFiles]
  · intro a b c
    simp only [compareFiles, decide_eq_true_eq]; omega
  · intro a b c
    simp only [compareFiles, decide_eq_false_iff_not]; omega

/-! ## `stdSort` meets the contract -/

theorem sortInsert_perm (lt : Nat → Nat → Bool) (a : Nat) (l : List Nat) :
    (sortInsert lt a l).Perm (a :: l) := by
  induction l with
  | nil => exact List.Perm.refl _
  | cons b l ih =>
    unfold sortInsert
    split_ifs
    · exact (List.Perm.cons b ih).trans (List.Perm.swap a b l)
    · exact List.Perm.refl _

theorem stdSort_perm (lt : Nat → Nat → Bool) (l : List Nat) : (stdSort lt l).Perm l := by
  induction l with
  | nil => exact List.Perm.refl _
  | cons a l ih =>
    unfold stdSort
    exact (sortInsert_perm lt a _).trans (List.Perm.cons a ih)

theorem sortInsert_sorted {lt : Nat → Nat → Bool} (hlt : StrictWeak lt) (a : Nat)
    (l : List Nat) (hl : SortedBy lt l) : SortedBy lt (sortInsert lt a l) := by
  obtain ⟨hirr, htr, hneg⟩ := hlt
  induction l with
  | nil => simp [sortInsert, SortedBy]
  | cons b l ih =>
    unfold SortedBy at hl ih ⊢
    rw [List.pairwise_cons] at hl
    unfold sortInsert
    split_ifs with hba
    · refine List.Pairwise.cons ?_ (ih hl.2)
      intro c hc
      rcases List.mem_cons.mp ((sortInsert_perm lt a l).subset hc) with rfl | hc
      · cases hcb : lt c b
        · rfl
        · have := htr _ _ _ hcb hba
          rw [hirr] at this; cases this
      · exact hl.1 c hc
    · have hba' : lt b a = false := by simpa using hba
      refine List.Pairwise.cons ?_ (List.Pairwise.cons hl.1 hl.2)
      intro c hc
      rcases List.mem_cons.mp hc with rfl | hc
      · exact hba'
      · exact hneg _ _ _ (hl.1 c hc) hba'

theorem stdSort_sorted {lt : Nat → Nat → Bool} (hlt : StrictWeak lt) (l : List Nat) :
    SortedBy lt (stdSort lt l) := by
  induction l with
  | nil => simp [stdSort, SortedBy]
  | cons a l ih =>
    unfold stdSort
    exact sortInsert_sorted hlt a _ ih

theorem stdSort_contract : StdSortContract stdSort :=
  fun lt l hlt => ⟨stdSort_perm lt l, stdSort_sorted hlt l⟩

/-! ## The search loop -/

/-- The loop finishes within `up - output` iterations and brackets the last
position the fixed entry does not precede. -/
theorem findLoop_spec (cmp : Nat → Nat → Bool) (c : List Nat) (dw : Nat) (U : Nat → Prop)
    (hU : ∀ m, cmp (c.getD dw 0) (c.getD m 0) = true → U m) :
    ∀ fuel up output, output < up → up + up ≤ SIZE_MOD → up - output ≤ fuel →
      cmp (c.getD dw 0) (c.getD output 0) = false → U up →
      ∃ p, findLoop cmp c dw fuel up output = some p ∧ output ≤ p ∧ p < up ∧
        cmp (c.getD dw 0) (c.getD p 0) = false ∧ U (p + 1) := by
  intro fuel
  induction fuel with
  | zero => intro up output h1 _ h3; omega
  | succ fuel ih =>
    intro up output hlt hup hfuel hP hUup
    have hS := SIZE_MOD_eq
    have hmp : addSize output up / 2 = (output + up) / 2 := by
      rw [addSize_eq (by omega)]
    have h1 : output ≤ (output + up) / 2 := by omega
    have h2 : (output + up) / 2 < up := by omega
    have h3 : output + 1 < up → output < (output + up) / 2 := by omega
    unfold findLoop
    simp only [hmp]
    generalize (output + up) / 2 = mp at h1 h2 h3
    by_cases hc : cmp (c.getD dw 0) (c.getD mp 0) = true
    · simp only [hc, if_true]
      have hne : mp ≠ output := by
        intro h; rw [h, hP] at hc; cases hc
      rw [subSize_eq h1 (by omega)]
      split_ifs with hw
      · refine ⟨output, rfl, le_refl _, hlt, hP, ?_⟩
        have : output + 1 = mp := by omega
        rw [this]; exact hU _ hc
      · obtain ⟨p, hp, hp1, hp2, hp3, hp4⟩ :=
          ih mp output (by omega) (by omega) (by omega) hP (hU _ hc)
        exact ⟨p, hp, hp1, by omega, hp3, hp4⟩
    · have hc' : cmp (c.getD dw 0) (c.getD mp 0) = false := by simpa using hc
      simp only [hc', Bool.false_eq_true, if_false]
      rw [subSize_eq (le_of_lt h2) (by omega)]
      split_ifs with hw
      · refine ⟨mp, rfl, h1, h2, hc', ?_⟩
        have : mp + 1 = up := by omega
        rw [this]; exact hUup
      · obtain ⟨p, hp, hp1, hp2, hp3, hp4⟩ :=
          ih up mp h2 hup (by omega) hc' hUup
        exact ⟨p, hp, by omega, hp2, hp3, hp4⟩

/-! ## The shift of `swap` -/

theorem getD_append_add {α : Type} (L R : List α) (i : Nat) (d : α) :
    (L ++ R).getD (L.length + i) d = R.getD i d := by
  rw [List.getD_eq_getElem?_getD, List.getD_eq_getElem?_getD,
    List.getElem?_append_right (by omega)]
  congr 2
  omega

theorem getD_append_length {α : Type} (L : List α) (x : α) (R : List α) (d : α) :
    (L ++ x :: R).getD L.length d = x := by
  have := getD_append_add L (x :: R) 0 d
  simpa using this

theorem shiftLoop_set (x : Nat) : ∀ (k : Nat) (L : List Nat) (y : Nat) (R : List Nat),
    k ≤ R.length →
    (shiftLoop (L ++ y :: R) k L.length).set (L.length + k) x =
      L ++ R.take k ++ x :: R.drop k := by
  intro k
  induction k with
  | zero =>
    intro L y R _
    simp [shiftLoop]
  | succ k ih =>
    intro L y R hk
    cases R with
    | nil => simp at hk
    | cons r R =>
      have hget : (L ++ y :: r :: R).getD (L.length + 1) 0 = r := by
        rw [getD_append_add]; rfl
      have hset : (L ++ y :: r :: R).set L.length r = (L ++ [r]) ++ r :: R := by
        simp
      have hih := ih (L ++ [r]) r R (by simpa using hk)
      unfold shiftLoop
      rw [hget, hset]
      have hlen : (L ++ [r]).length = L.length + 1 := by simp
      rw [hlen] at hih
      have hidx : L.length + (k + 1) = L.length + 1 + k := by omega
      rw [hidx, hih]
      simp

/-- On a sequence split at `current`, `swap` moves the entry there behind the
next `k` entries and keeps everything else in order. -/
theorem swap_eq (L : List Nat) (x : Nat) (R : List Nat) (k : Nat) (hk : k ≤ R.length) :
    swap (L ++ x :: R) L.length (L.length + k) = L ++ R.take k ++ x :: R.drop k := by
  unfold swap
  by_cases h0 : k = 0
  · subst h0; simp
  · have hne : ¬ (L.length = L.length + k) := by omega
    have hst : (L ++ x :: R).getD L.length 0 = x := getD_append_length L x R 0
    have hsub : L.length + k - L.length = k := by omega
    simp only [hne, if_false, hst, hsub]
    exact shiftLoop_set x k L x R hk

theorem getD_eq_getElem_of_lt {α : Type} (l : List α) (i : Nat) (d : α) (h : i < l.length) :
    l.getD i d = l.get ⟨i, h⟩ := by
  rw [List.getD_eq_getElem?_getD, List.getElem?_eq_getElem h]
  rfl

/-- On a sequence split at position `|L|` whose suffix `R` is sorted, the search
finishes and returns the position that separates the entries of `R` that the
entry `x` does not precede from those it precedes. -/
theorem findNewPositionInRange_split {lt : Nat → Nat → Bool} (hlt : StrictWeak lt)
    (L : List Nat) (x : Nat) (R : List Nat) (hR : SortedBy lt R)
    (hN : (L ++ x :: R).length + (L ++ x :: R).length ≤ SIZE_MOD) :
    ∃ k, k ≤ R.length ∧
      findNewPositionInRange (L ++ x :: R).length L.length (L ++ x :: R).length
        (L ++ x :: R) lt = some (L.length + k) ∧
      (∀ r ∈ R.take k, lt x r = false) ∧ (∀ r ∈ R.drop k, lt x r = true) := by
  obtain ⟨hirr, htr, hneg⟩ := hlt
  have hlen : (L ++ x :: R).length = L.length + 1 + R.length := by
    simp only [List.length_append, List.length_cons]; omega
  have hx : (L ++ x :: R).getD L.length 0 = x := getD_append_length L x R 0
  have hget : ∀ i, (L ++ x :: R).getD (L.length + 1 + i) 0 = R.getD i 0 := by
    intro i
    have h1 : L ++ x :: R = (L ++ [x]) ++ R := by simp
    have h2 : L.length + 1 + i = (L ++ [x]).length + i := by simp
    rw [h1, h2, getD_append_add]
  have hsort := List.pairwise_iff_getElem.mp hR
  have key := findLoop_spec lt (L ++ x :: R) L.length
    (fun m => m ≤ L.length ∨ ∀ r ∈ R.drop (m - (L.length + 1)), lt x r = true)
    (by
      intro m hm
      rw [hx] at hm
      by_cases hml : m ≤ L.length
      · exact Or.inl hml
      · right
        obtain ⟨i, rfl⟩ : ∃ i, m = L.length + 1 + i := ⟨m - (L.length + 1), by omega⟩
        rw [hget] at hm
        have hsub : L.length + 1 + i - (L.length + 1) = i := by omega
        rw [hsub]
        intro r hr
        obtain ⟨i', hi', rfl⟩ := List.mem_drop_iff_getElem.mp hr
        have hi : i < R.length := by omega
        rw [getD_eq_getElem_of_lt R i 0 hi] at hm
        by_cases h0 : i' = 0
        · subst h0; exact hm
        · have hs := hsort i (i + i') hi (by omega) (by omega)
          cases hxr : lt x R[i + i']
          · have := hneg _ _ _ hxr hs
            have hm' : lt x R[i] = true := hm
            rw [hm'] at this; cases this
          · rfl)
    (L ++ x :: R).length (L ++ x :: R).length L.length
    (by omega) hN (by omega) (by rw [hx]; exact hirr x)
    (Or.inr (by
      have : L.length + 1 + R.length - (L.length + 1) = R.length := by omega
      rw [hlen, this, List.drop_length]
      intro r hr; cases hr))
  obtain ⟨p, hp, hp1, hp2, hp3, hp4⟩ := key
  rw [hx] at hp3
  refine ⟨p - L.length, by omega, ?_, ?_, ?_⟩
  · unfold findNewPositionInRange
    rw [hp]; congr 1; omega
  · intro r hr
    obtain ⟨i, hi, rfl⟩ := List.mem_take_iff_getElem.mp hr
    have hi1 : i < p - L.length := by omega
    have hi2 : i < R.length := by omega
    obtain ⟨q, hq⟩ : ∃ q, p = L.length + 1 + q := ⟨p - (L.length + 1), by omega⟩
    have hq2 : q < R.length := by omega
    rw [hq, hget, getD_eq_getElem_of_lt R q 0 hq2] at hp3
    by_cases hiq : i = q
    · subst hiq; exact hp3
    · have hs := hsort i q hi2 hq2 (by omega)
      exact hneg _ _ _ hp3 hs
  · rcases hp4 with h | h
    · omega
    · have : p + 1 - (L.length + 1) = p - L.length := by omega
      rw [this] at h; exact h

/-- Moving the one entry whose key grew behind the entries it no longer
precedes restores sortedness. -/
theorem reposition_sorted {lt lt1 : Nat → Nat → Bool} (hlt1 : StrictWeak lt1)
    (L : List Nat) (x : Nat) (R : List Nat) (k : Nat)
    (hsorted : SortedBy lt (L ++ x :: R))
    (hsame : ∀ a b, a ≠ x → b ≠ x → lt1 a b = lt a b)
    (hxL : x ∉ L) (hxR : x ∉ R)
    (hL : ∀ l ∈ L, lt1 x l = false)
    (htake : ∀ r ∈ R.take k, lt1 x r = false)
    (hdrop : ∀ r ∈ R.drop k, lt1 x r = true) :
    SortedBy lt1 (L ++ R.take k ++ x :: R.drop k) := by
  obtain ⟨hirr, htr, hneg⟩ := hlt1
  unfold SortedBy at hsorted ⊢
  rw [List.pairwise_append, List.pairwise_cons] at hsorted
  obtain ⟨hLs, ⟨_, hRs⟩, hLR⟩ := hsorted
  have hneL : ∀ l ∈ L, l ≠ x := fun l hl h => hxL (h ▸ hl)
  have hneR : ∀ r ∈ R, r ≠ x := fun r hr h => hxR (h ▸ hr)
  have hRs1 : R.Pairwise fun a b => lt1 b a = false :=
    hRs.imp_of_mem fun {a b} ha hb h => by rw [hsame b a (hneR b hb) (hneR a ha)]; exact h
  have hLs1 : L.Pairwise fun a b => lt1 b a = false :=
    hLs.imp_of_mem fun {a b} ha hb h => by rw [hsame b a (hneL b hb) (hneL a ha)]; exact h
  rw [← List.take_append_drop k R, List.pairwise_append] at hRs1
  obtain ⟨hT, hD, hTD⟩ := hRs1
  rw [List.append_assoc, List.pairwise_append]
  refine ⟨hLs1, ?_, ?_⟩
  · rw [List.pairwise_append, List.pairwise_cons]
    refine ⟨hT, ⟨?_, hD⟩, ?_⟩
    · intro r hr
      have hxr := hdrop r hr
      cases hrx : lt1 r x
      · rfl
      · have := htr _ _ _ hxr hrx
        rw [hirr] at this; cases this
    · intro t ht b hb
      rcases List.mem_cons.mp hb with rfl | hb
      · exact htake t ht
      · exact hTD t ht b hb
  · intro l hl b hb
    rcases List.mem_append.mp hb with hb | hb
    · have hbR : b ∈ R := List.mem_of_mem_take hb
      rw [hsame b l (hneR b hbR) (hneL l hl)]
      exact hLR l hl b (List.mem_cons_of_mem _ hbR)
    · rcases List.mem_cons.mp hb with rfl | hb
      · exact hL l hl
      · have hbR : b ∈ R := List.mem_of_mem_drop hb
        rw [hsame b l (hneR b hbR) (hneL l hl)]
        exact hLR l hl b (List.mem_cons_of_mem _ hbR)

/-! ## The scan of the inner loop -/

theorem scanNodes_some {nodes : List Node} {idx : List Nat} {file : File} :
    ∀ (count j p : Nat), scanNodes nodes idx file count j = some p →
      j ≤ p ∧ p < j + count ∧
      (nodes.getD (idx.getD p 0) default).canAccept file = true ∧
      ∀ m, j ≤ m → m < p → (nodes.getD (idx.getD m 0) default).canAccept file = false := by
  intro count
  induction count with
  | zero => intro j p h; simp [scanNodes] at h
  | succ count ih =>
    intro j p h
    unfold scanNodes at h
    cases hacc : (nodes.getD (idx.getD j 0) default).canAccept file
    · rw [hacc] at h
      simp only [Bool.not_false, if_true] at h
      obtain ⟨h1, h2, h3, h4⟩ := ih (j + 1) p h
      refine ⟨by omega, by omega, h3, ?_⟩
      intro m hm1 hm2
      by_cases hmj : m = j
      · subst hmj; exact hacc
      · exact h4 m (by omega) hm2
    · rw [hacc] at h
      simp only [Bool.not_true, Bool.false_eq_true, if_false, Option.some.injEq] at h
      subst h
      exact ⟨le_refl _, by omega, hacc, fun m h1 h2 => by omega⟩

theorem scanNodes_none {nodes : List Node} {idx : List Nat} {file : File} :
    ∀ (count j : Nat), scanNodes nodes idx file count j = none →
      ∀ m, j ≤ m → m < j + count →
        (nodes.getD (idx.getD m 0) default).canAccept file = false := by
  intro count
  induction count with
  | zero => intro j _ m h1 h2; omega
  | succ count ih =>
    intro j h m hm1 hm2
    unfold scanNodes at h
    cases hacc : (nodes.getD (idx.getD j 0) default).canAccept file
    · rw [hacc] at h
      simp only [Bool.not_false, if_true] at h
      by_cases hmj : m = j
      · subst hmj; exact hacc
      · exact ih (j + 1) h m (by omega) (by omega)
    · rw [hacc] at h
      simp at h

/-! ## `Node::add` behind `Node::canAccept` -/

theorem Node.add_spec (node : Node) (file : File)
    (hmem : node.occupiedMemory + node.freeMemory = node.size) (hsize : node.size < SIZE_MOD)
    (hacc : node.canAccept file = true) :
    (node.add file).occupiedMemory = node.occupiedMemory + file.size ∧
    (node.add file).freeMemory + file.size = node.freeMemory ∧
    (node.add file).size = node.size ∧ (node.add file).name = node.name := by
  have hle : file.size ≤ node.freeMemory := by simpa [Node.canAccept] using hacc
  have h1 : addSize node.occupiedMemory file.size = node.occupiedMemory + file.size :=
    addSize_eq (by omega)
  have h2 : subSize node.freeMemory file.size = node.freeMemory - file.size :=
    subSize_eq hle (by omega)
  refine ⟨h1, ?_, rfl, rfl⟩
  show subSize node.freeMemory file.size + file.size = node.freeMemory
  omega

/-! ## Element stores -/

theorem getD_set_self {α : Type} (l : List α) (i : Nat) (a d : α) (h : i < l.length) :
    (l.set i a).getD i d = a := by
  rw [List.getD_eq_getElem?_getD, List.getElem?_set_self h]
  rfl

theorem getD_set_ne {α : Type} (l : List α) (i j : Nat) (a d : α) (h : i ≠ j) :
    (l.set i a).getD j d = l.getD j d := by
  rw [List.getD_eq_getElem?_getD, List.getD_eq_getElem?_getD, List.getElem?_set_ne h]

theorem getD_mem {α : Type} (l : List α) (i : Nat) (d : α) (h : i < l.length) :
    l.getD i d ∈ l := by
  rw [getD_eq_getElem_of_lt l i d h]
  exact List.get_mem l i h

/-! ## One placement -/

/-- The body of the inner loop on a well-formed state whose order sequence is
split at the accepting position: it finishes, stores the node with the file
added, records the node, and moves the node's index behind `k` entries; the
resulting state is well formed. -/
theorem placeAt_split {N : Nat} {nodes : List Node} {plan : List Nat}
    {L : List Nat} {x : Nat} {R : List Nat}
    (hwf : WellFormed N ⟨nodes, plan, L ++ x :: R⟩) (hN : N + N ≤ SIZE_MOD)
    (file : File) (idx_f : Nat)
    (hacc : (nodes.getD x default).canAccept file = true) :
    ∃ k, k ≤ R.length ∧
      placeAt file idx_f ⟨nodes, plan, L ++ x :: R⟩ L.length =
        some ⟨nodes.set x ((nodes.getD x default).add file), plan.set idx_f x,
          L ++ R.take k ++ x :: R.drop k⟩ ∧
      WellFormed N ⟨nodes.set x ((nodes.getD x default).add file), plan.set idx_f x,
          L ++ R.take k ++ x :: R.drop k⟩ := by
  obtain ⟨hlenN, hperm, hsorted, hmem⟩ := hwf
  simp only at hlenN hperm hsorted hmem
  have hlen : (L ++ x :: R).length = N := by
    rw [hperm.length_eq, List.length_range]
  have hnodup : (L ++ x :: R).Nodup := hperm.nodup_iff.mpr (List.nodup_range N)
  have hxL : x ∉ L := by
    intro h
    have := (List.nodup_append.mp hnodup).2.2 h (List.mem_cons_self x R)
    exact this
  have hxR : x ∉ R := by
    have := (List.nodup_append.mp hnodup).2.1
    exact (List.nodup_cons.mp this).1
  have hxN : x < N :=
    List.mem_range.mp (hperm.subset (List.mem_append_right L (List.mem_cons_self x R)))
  have hxlen : x < nodes.length := by omega
  have hnode := hmem _ (getD_mem nodes x default hxlen)
  obtain ⟨hocc, hfree, _, _⟩ := Node.add_spec _ file hnode.1 hnode.2 hacc
  have hgx : (nodes.set x ((nodes.getD x default).add file)).getD x default =
      (nodes.getD x default).add file := getD_set_self nodes x _ default hxlen
  have hga : ∀ a, a ≠ x → (nodes.set x ((nodes.getD x default).add file)).getD a default =
      nodes.getD a default := fun a ha => getD_set_ne nodes x a _ default (Ne.symm ha)
  have hsame : ∀ a b, a ≠ x → b ≠ x →
      compareNodes (nodes.set x ((nodes.getD x default).add file)) a b =
        compareNodes nodes a b := by
    intro a b ha hb
    unfold compareNodes
    rw [hga a ha, hga b hb]
  have hsorted' := hsorted
  unfold SortedBy at hsorted'
  rw [List.pairwise_append, List.pairwise_cons] at hsorted'
  obtain ⟨_, ⟨_, hRs⟩, hLR⟩ := hsorted'
  have hneL : ∀ l ∈ L, l ≠ x := fun l hl h => hxL (h ▸ hl)
  have hneR : ∀ r ∈ R, r ≠ x := fun r hr h => hxR (h ▸ hr)
  have hL : ∀ l ∈ L, compareNodes (nodes.set x ((nodes.getD x default).add file)) x l
      = false := by
    intro l hl
    have hold := hLR l hl x (List.mem_cons_self x R)
    rw [compareNodes_eq_false] at hold ⊢
    rw [hgx, hga l (hneL l hl)]
    omega
  have hRs1 : SortedBy (compareNodes (nodes.set x ((nodes.getD x default).add file))) R :=
    hRs.imp_of_mem fun {a b} ha hb h => by
      rw [hsame b a (hneR b hb) (hneR a ha)]; exact h
  obtain ⟨k, hk, hfind, htake, hdrop⟩ :=
    findNewPositionInRange_split (compareNodes_strictWeak _) L x R hRs1 (by rw [hlen]; exact hN)
  refine ⟨k, hk, ?_, ?_⟩
  · unfold placeAt
    simp only [getD_append_length, hfind, swap_eq L x R k hk]
  · refine ⟨?_, ?_, ?_, ?_⟩
    · simp only [List.length_set]; exact hlenN
    · refine List.Perm.trans ?_ hperm
      rw [List.append_assoc]
      refine List.Perm.append_left L ?_
      refine List.perm_middle.trans ?_
      rw [List.take_append_drop]
    · exact reposition_sorted (compareNodes_strictWeak _) L x R k hsorted hsame hxL hxR hL
        htake hdrop
    · intro node hnode'
      rcases List.mem_or_eq_of_mem_set hnode' with h | h
      · exact hmem node h
      · subst h
        obtain ⟨h1, h2, h3, _⟩ := Node.add_spec _ file hnode.1 hnode.2 hacc
        refine ⟨by omega, by omega⟩

/-! ## One iteration of the outer loop -/

theorem split_at (idx : List Nat) (j : Nat) (hj : j < idx.length) :
    ∃ L R, idx = L ++ idx.getD j 0 :: R ∧ L.length = j := by
  refine ⟨idx.take j, idx.drop (j + 1), ?_, ?_⟩
  · rw [getD_eq_getElem_of_lt idx j 0 hj]
    have h := List.drop_eq_getElem_cons hj
    have h2 := (List.take_append_drop j idx).symm
    rw [h] at h2
    exact h2
  · rw [List.length_take]; omega

theorem WellFormed.length_indexes {N : Nat} {s : State} (hwf : WellFormed N s) :
    s.indexes_nodes.length = N := by
  rw [hwf.perm.length_eq, List.length_range]

theorem WellFormed.index_lt {N : Nat} {s : State} (hwf : WellFormed N s) (j : Nat)
    (hj : j < N) : s.indexes_nodes.getD j 0 < N := by
  have hlen := hwf.length_indexes
  exact List.mem_range.mp (hwf.perm.subset (getD_mem _ j 0 (by omega)))

/-- Every node index sits at some position of the order sequence. -/
theorem WellFormed.position_of {N : Nat} {s : State} (hwf : WellFormed N s) (y : Nat)
    (hy : y < N) : ∃ m, m < N ∧ s.indexes_nodes.getD m 0 = y := by
  have hmem : y ∈ s.indexes_nodes := hwf.perm.symm.subset (List.mem_range.mpr hy)
  obtain ⟨m, hm, hmy⟩ := List.getElem_of_mem hmem
  refine ⟨m, by rw [← hwf.length_indexes]; exact hm, ?_⟩
  rw [getD_eq_getElem_of_lt _ m 0 hm]
  exact hmy

/-- The scan finds nothing exactly when the step leaves the state as it is;
then no node accepts the file. -/
theorem allocStep_none {N : Nat} {s : State} (hwf : WellFormed N s)
    (listOfFiles : List File) (idx_f : Nat)
    (hscan : scanNodes s.listOfNodes s.indexes_nodes (listOfFiles.getD idx_f default)
      s.indexes_nodes.length 0 = none) :
    allocStep listOfFiles idx_f s = some s ∧
      ∀ y, y < N →
        (s.listOfNodes.getD y default).canAccept (listOfFiles.getD idx_f default) = false := by
  refine ⟨?_, ?_⟩
  · unfold allocStep
    simp only [hscan]
  · intro y hy
    obtain ⟨m, hm, hmy⟩ := hwf.position_of y hy
    have := scanNodes_none _ _ hscan m (Nat.zero_le _)
      (by rw [hwf.length_indexes]; omega)
    rw [hmy] at this
    exact this

/-- The scan finds position `j`: the step finishes with the file added to the
node at that position, which is the first accepting position. -/
theorem allocStep_some {N : Nat} {s : State} (hwf : WellFormed N s) (hN : N + N ≤ SIZE_MOD)
    (listOfFiles : List File) (idx_f j : Nat)
    (hscan : scanNodes s.listOfNodes s.indexes_nodes (listOfFiles.getD idx_f default)
      s.indexes_nodes.length 0 = some j) :
    j < N ∧ s.indexes_nodes.getD j 0 < N ∧
    acceptsAt s (listOfFiles.getD idx_f default) j = true ∧
    (∀ m, m < j → acceptsAt s (listOfFiles.getD idx_f default) m = false) ∧
    ∃ s1, allocStep listOfFiles idx_f s = some s1 ∧ WellFormed N s1 ∧
      s1.listOfNodes = s.listOfNodes.set (s.indexes_nodes.getD j 0)
        ((s.listOfNodes.getD (s.indexes_nodes.getD j 0) default).add
          (listOfFiles.getD idx_f default)) ∧
      s1.distributionPlan = s.distributionPlan.set idx_f (s.indexes_nodes.getD j 0) := by
  obtain ⟨_, hj, hacc, hbefore⟩ := scanNodes_some _ _ _ hscan
  have hlen := hwf.length_indexes
  have hjN : j < N := by omega
  refine ⟨hjN, hwf.index_lt j hjN, hacc, fun m hm => hbefore m (Nat.zero_le _) hm, ?_⟩
  obtain ⟨L, R, hsplit, hL⟩ := split_at s.indexes_nodes j (by omega)
  obtain ⟨nodes, plan, idx⟩ := s
  simp only at hsplit hacc hscan ⊢
  generalize hx : idx.getD j 0 = x at hsplit hacc ⊢
  subst hsplit
  obtain ⟨k, _, hplace, hwf1⟩ :=
    placeAt_split hwf hN (listOfFiles.getD idx_f default) idx_f hacc
  refine ⟨_, ?_, hwf1, rfl, rfl⟩
  unfold allocStep
  simp only [hscan]
  rw [← hL]
  exact hplace

/-- Among the nodes that accept the file, none comes before the node at the
first accepting position in the comparator order. -/
theorem first_accepting_least {N : Nat} {s : State} (hwf : WellFormed N s) (file : File)
    (j : Nat) (hj : j < N) (hbefore : ∀ m, m < j → acceptsAt s file m = false)
    (y : Nat) (hy : y < N) (hacc : (s.listOfNodes.getD y default).canAccept file = true) :
    compareNodes s.listOfNodes y (s.indexes_nodes.getD j 0) = false := by
  obtain ⟨m, hm, hmy⟩ := hwf.position_of y hy
  have hlen := hwf.length_indexes
  rcases Nat.lt_trichotomy m j with h | h | h
  · have := hbefore m h
    unfold acceptsAt at this
    rw [hmy, hacc] at this
    cases this
  · subst h
    rw [hmy]
    exact (compareNodes_strictWeak _).1 y
  · have hs := List.pairwise_iff_getElem.mp hwf.sorted j m (by omega) (by omega) h
    rw [← hmy, getD_eq_getElem_of_lt _ m 0 (by omega), getD_eq_getElem_of_lt _ j 0 (by omega)]
    exact hs

/-! ## The outer loop -/

/-- One iteration on a well-formed state finishes in a well-formed state; the
assignment map keeps its length and gains at most a node index, node sizes stay
and occupied memory does not shrink. -/
theorem allocStep_wf {N : Nat} {s : State} (hwf : WellFormed N s) (hN : N + N ≤ SIZE_MOD)
    (listOfFiles : List File) (idx_f : Nat) :
    ∃ s1, allocStep listOfFiles idx_f s = some s1 ∧ WellFormed N s1 ∧
      s1.distributionPlan.length = s.distributionPlan.length ∧
      (∀ e ∈ s1.distributionPlan, e ∈ s.distributionPlan ∨ e < N) ∧
      ∀ i, (s1.listOfNodes.getD i default).size = (s.listOfNodes.getD i default).size ∧
        (s.listOfNodes.getD i default).occupiedMemory ≤
          (s1.listOfNodes.getD i default).occupiedMemory := by
  cases hscan : scanNodes s.listOfNodes s.indexes_nodes (listOfFiles.getD idx_f default)
      s.indexes_nodes.length 0 with
  | none =>
    exact ⟨s, (allocStep_none hwf listOfFiles idx_f hscan).1, hwf, rfl,
      fun e he => Or.inl he, fun i => ⟨rfl, le_refl _⟩⟩
  | some j =>
    obtain ⟨hj, hx, hacc, _, s1, hstep, hwf1, hnodes, hplan⟩ :=
      allocStep_some hwf hN listOfFiles idx_f j hscan
    refine ⟨s1, hstep, hwf1, ?_, ?_, ?_⟩
    · rw [hplan, List.length_set]
    · intro e he
      rw [hplan] at he
      rcases List.mem_or_eq_of_mem_set he with h | h
      · exact Or.inl h
      · right; rw [h]; exact hx
    · intro i
      rw [hnodes]
      have hxlen : s.indexes_nodes.getD j 0 < s.listOfNodes.length := by
        rw [hwf.length_nodes]; exact hx
      by_cases hi : i = s.indexes_nodes.getD j 0
      · subst hi
        rw [getD_set_self _ _ _ _ hxlen]
        have hnode := hwf.memory _ (getD_mem s.listOfNodes _ default hxlen)
        obtain ⟨h1, _, h3, _⟩ := Node.add_spec _ (listOfFiles.getD idx_f default)
          hnode.1 hnode.2 hacc
        exact ⟨h3, by omega⟩
      · rw [getD_set_ne _ _ _ _ _ (Ne.symm hi)]
        exact ⟨rfl, le_refl _⟩

/-- The outer loop over any sequence of file indices finishes, with the same
guarantees as one iteration. -/
theorem allocLoop_wf {N : Nat} (hN : N + N ≤ SIZE_MOD) (listOfFiles : List File) :
    ∀ (l : List Nat) (s : State), WellFormed N s →
    ∃ s1, allocLoop listOfFiles l s = some s1 ∧ WellFormed N s1 ∧
      s1.distributionPlan.length = s.distributionPlan.length ∧
      (∀ e ∈ s1.distributionPlan, e ∈ s.distributionPlan ∨ e < N) ∧
      ∀ i, (s1.listOfNodes.getD i default).size = (s.listOfNodes.getD i default).size ∧
        (s.listOfNodes.getD i default).occupiedMemory ≤
          (s1.listOfNodes.getD i default).occupiedMemory := by
  intro l
  induction l with
  | nil =>
    intro s hwf
    exact ⟨s, rfl, hwf, rfl, fun e he => Or.inl he, fun i => ⟨rfl, le_refl _⟩⟩
  | cons idx_f rest ih =>
    intro s hwf
    obtain ⟨s1, hstep, hwf1, hlen1, hplan1, hnodes1⟩ := allocStep_wf hwf hN listOfFiles idx_f
    obtain ⟨s2, hloop, hwf2, hlen2, hplan2, hnodes2⟩ := ih s1 hwf1
    refine ⟨s2, ?_, hwf2, hlen2.trans hlen1, ?_, ?_⟩
    · unfold allocLoop
      simp only [hstep]
      exact hloop
    · intro e he
      rcases hplan2 e he with h | h
      · exact hplan1 e h
      · exact Or.inr h
    · intro i
      exact ⟨(hnodes2 i).1.trans (hnodes1 i).1, le_trans (hnodes1 i).2 (hnodes2 i).2⟩

theorem allocLoop_append (listOfFiles : List File) :
    ∀ (l1 l2 : List Nat) (s : State),
      allocLoop listOfFiles (l1 ++ l2) s =
        (allocLoop listOfFiles l1 s).bind (allocLoop listOfFiles l2) := by
  intro l1
  induction l1 with
  | nil => intro l2 s; rfl
  | cons a l1 ih =>
    intro l2 s
    simp only [List.cons_append, allocLoop]
    cases allocStep listOfFiles a s with
    | none => rfl
    | some s1 => exact ih l2 s1

theorem allocLoop_singleton (listOfFiles : List File) (idx_f : Nat) (s : State) :
    allocLoop listOfFiles [idx_f] s = allocStep listOfFiles idx_f s := by
  simp only [allocLoop]
  cases allocStep listOfFiles idx_f s <;> rfl

/-! ## The pass from the state `main` hands over -/

theorem sortedFiles_perm {sort : (Nat → Nat → Bool) → List Nat → List Nat}
    (hsort : StdSortContract sort) (listOfFiles : List File) :
    (sortedFiles sort listOfFiles).Perm (List.range listOfFiles.length) :=
  (hsort _ _ (compareFiles_strictWeak listOfFiles)).1

theorem sortedFiles_length {sort : (Nat → Nat → Bool) → List Nat → List Nat}
    (hsort : StdSortContract sort) (listOfFiles : List File) :
    (sortedFiles sort listOfFiles).length = listOfFiles.length := by
  rw [(sortedFiles_perm hsort listOfFiles).length_eq, List.length_range]

theorem sortedFiles_lt {sort : (Nat → Nat → Bool) → List Nat → List Nat}
    (hsort : StdSortContract sort) (listOfFiles : List File) (k : Nat)
    (hk : k < listOfFiles.length) :
    (sortedFiles sort listOfFiles).getD k 0 < listOfFiles.length :=
  List.mem_range.mp ((sortedFiles_perm hsort listOfFiles).subset
    (getD_mem _ k 0 (by rw [sortedFiles_length hsort]; exact hk)))

theorem initState_wf {sort : (Nat → Nat → Bool) → List Nat → List Nat}
    (hsort : StdSortContract sort) (distributionPlan : List Nat) {listOfNodes : List Node}
    (hfresh : FreshNodes listOfNodes) :
    WellFormed listOfNodes.length (initState sort distributionPlan listOfNodes) := by
  obtain ⟨hperm, hsorted⟩ := hsort (compareNodes listOfNodes) (List.range listOfNodes.length)
    (compareNodes_strictWeak listOfNodes)
  refine ⟨rfl, hperm, hsorted, ?_⟩
  intro node hnode
  obtain ⟨h1, h2, h3⟩ := hfresh node hnode
  exact ⟨by rw [h1, h2]; omega, h3⟩

/-- Iteration `k` of the outer loop takes the state after `k` iterations to the
state after `k + 1`. -/
theorem allocateNodesUpTo_succ {sort : (Nat → Nat → Bool) → List Nat → List Nat}
    (hsort : StdSortContract sort) (distributionPlan : List Nat) (listOfFiles : List File)
    (listOfNodes : List Node) (k : Nat) (hk : k < listOfFiles.length) :
    allocateNodesUpTo sort distributionPlan listOfFiles listOfNodes (k + 1) =
      (allocateNodesUpTo sort distributionPlan listOfFiles listOfNodes k).bind
        (allocStep listOfFiles ((sortedFiles sort listOfFiles).getD k 0)) := by
  unfold allocateNodesUpTo
  have hlen := sortedFiles_length hsort listOfFiles
  have hk' : k < (sortedFiles sort listOfFiles).length := by omega
  have htake : (sortedFiles sort listOfFiles).take (k + 1) =
      (sortedFiles sort listOfFiles).take k ++ [(sortedFiles sort listOfFiles).getD k 0] := by
    rw [List.take_succ, List.getElem?_eq_getElem hk', getD_eq_getElem_of_lt _ k 0 hk']
    rfl
  rw [htake, allocLoop_append]
  congr 1
  funext s
  exact allocLoop_singleton listOfFiles _ s

/-- After all iterations the state is the result of `allocateNodes`. -/
theorem allocateNodesUpTo_length {sort : (Nat → Nat → Bool) → List Nat → List Nat}
    (hsort : StdSortContract sort) (distributionPlan : List Nat) (listOfFiles : List File)
    (listOfNodes : List Node) :
    allocateNodesUpTo sort distributionPlan listOfFiles listOfNodes listOfFiles.length =
      allocateNodes sort distributionPlan listOfFiles listOfNodes := by
  unfold allocateNodesUpTo allocateNodes
  rw [← sortedFiles_length hsort listOfFiles, List.take_length]

/-- Every state the pass reaches exists and is well formed. -/
theorem allocateNodesUpTo_wf {sort : (Nat → Nat → Bool) → List Nat → List Nat}
    (hsort : StdSortContract sort) (distributionPlan : List Nat) (listOfFiles : List File)
    {listOfNodes : List Node} (hfresh : FreshNodes listOfNodes)
    (hN : listOfNodes.length + listOfNodes.length ≤ SIZE_MOD) (k : Nat) :
    ∃ s, allocateNodesUpTo sort distributionPlan listOfFiles listOfNodes k = some s ∧
      WellFormed listOfNodes.length s ∧
      s.distributionPlan.length = distributionPlan.length ∧
      (∀ e ∈ s.distributionPlan, e ∈ distributionPlan ∨ e < listOfNodes.length) ∧
      ∀ i, (s.listOfNodes.getD i default).size = (listOfNodes.getD i default).size ∧
        (listOfNodes.getD i default).occupiedMemory ≤
          (s.listOfNodes.getD i default).occupiedMemory :=
  allocLoop_wf hN listOfFiles _ _ (initState_wf hsort distributionPlan hfresh)

/-- Where the comparator separates all entries, every routine meeting the
contract of `std::sort` returns the same sequence as `stdSort`. -/
theorem sort_eq_stdSort {sort : (Nat → Nat → Bool) → List Nat → List Nat}
    (hsort : StdSortContract sort) {lt : Nat → Nat → Bool} (hlt : StrictWeak lt)
    (l : List Nat)
    (hanti : ∀ a ∈ l, ∀ b ∈ l, lt b a = false → lt a b = false → a = b) :
    sort lt l = stdSort lt l := by
  obtain ⟨hp, hs⟩ := hsort lt l hlt
  obtain ⟨hp', hs'⟩ := stdSort_contract lt l hlt
  refine List.Perm.eq_of_sorted ?_ hs hs' (hp.trans hp'.symm)
  intro a b ha hb h1 h2
  exact hanti a (hp.subset ha) b (hp'.subset hb) h1 h2

theorem freshNodes_nodesAB : FreshNodes nodesAB := by
  unfold FreshNodes; decide

theorem set_getD_self {α : Type} (d : α) : ∀ (l : List α) (i : Nat), l.set i (l.getD i d) = l
  | [], _ => rfl
  | _ :: _, 0 => rfl
  | a :: l, i + 1 => by
    show a :: l.set i (l.getD i d) = a :: l
    rw [set_getD_self d l i]

theorem sort_nil {sort : (Nat → Nat → Bool) → List Nat → List Nat}
    (hsort : StdSortContract sort) {lt : Nat → Nat → Bool} (hlt : StrictWeak lt) :
    sort lt [] = [] :=
  List.perm_nil.mp (hsort lt [] hlt).1

/-- With no node in the order sequence the outer loop changes nothing. -/
theorem allocLoop_no_nodes (listOfFiles : List File) (nodes : List Node) (plan : List Nat) :
    ∀ l : List Nat, allocLoop listOfFiles l ⟨nodes, plan, []⟩ = some ⟨nodes, plan, []⟩
  | [] => rfl
  | _ :: rest => allocLoop_no_nodes listOfFiles nodes plan rest

/-! ## The claims -/

/-- C1: in every state `allocateNodes` reaches (after the initial sort, `k = 0`,
and after each iteration of the outer loop) the node order sequence is sorted
under `compareNodes`: no later entry precedes an earlier one. -/
theorem C1_order_sorted (sort : (Nat → Nat → Bool) → List Nat → List Nat)
    (hsort : StdSortContract sort) (distributionPlan : List Nat) (listOfFiles : List File)
    (listOfNodes : List Node) (hfresh : FreshNodes listOfNodes)
    (hN : listOfNodes.length ≤ 2 ^ 63) (k : Nat) :
    ∃ s, allocateNodesUpTo sort distributionPlan listOfFiles listOfNodes k = some s ∧
      s.indexes_nodes.length = listOfNodes.length ∧
      ∀ a b, a < b → b < s.indexes_nodes.length →
        compareNodes s.listOfNodes (s.indexes_nodes.getD b 0) (s.indexes_nodes.getD a 0)
          = false := by
  have hN' : listOfNodes.length + listOfNodes.length ≤ SIZE_MOD := by
    rw [SIZE_MOD_eq]; omega
  obtain ⟨s, hs, hwf, _⟩ :=
    allocateNodesUpTo_wf hsort distributionPlan listOfFiles hfresh hN' k
  refine ⟨s, hs, hwf.length_indexes, ?_⟩
  intro a b hab hb
  have := List.pairwise_iff_getElem.mp hwf.sorted a b (by omega) hb hab
  rw [getD_eq_getElem_of_lt _ a 0 (by omega), getD_eq_getElem_of_lt _ b 0 hb]
  exact this

/-- Witness of C1 on scenario 1, after the first placement. -/
theorem C1_order_sorted_witness :
    StdSortContract stdSort ∧ FreshNodes nodesAB ∧ nodesAB.length ≤ 2 ^ 63 ∧
    ∃ s, allocateNodesUpTo stdSort (initialPlan filesXY) filesXY nodesAB 1 = some s ∧
      s.indexes_nodes.length = nodesAB.length ∧
      ∀ a b, a < b → b < s.indexes_nodes.length →
        compareNodes s.listOfNodes (s.indexes_nodes.getD b 0) (s.indexes_nodes.getD a 0)
          = false :=
  ⟨stdSort_contract, freshNodes_nodesAB, by decide,
    C1_order_sorted stdSort stdSort_contract (initialPlan filesXY) filesXY nodesAB
      freshNodes_nodesAB (by decide) 1⟩

/-- C2: when the scan of iteration `k` finds a position `j` (the file is
placed), the node at that position accepts the file, the iteration finishes
with the file added to that node and the file's entry set to it, and no
accepting node has strictly smaller occupied memory, or equal occupied memory
and strictly larger free memory. -/
theorem C2_least_loaded (sort : (Nat → Nat → Bool) → List Nat → List Nat)
    (hsort : StdSortContract sort) (listOfFiles : List File) (listOfNodes : List Node)
    (hfresh : FreshNodes listOfNodes) (hN : listOfNodes.length ≤ 2 ^ 63)
    (k : Nat) (hk : k < listOfFiles.length) (s : State) (j : Nat)
    (hs : allocateNodesUpTo sort (initialPlan listOfFiles) listOfFiles listOfNodes k = some s)
    (hscan : scanNodes s.listOfNodes s.indexes_nodes
      (listOfFiles.getD ((sortedFiles sort listOfFiles).getD k 0) default)
      s.indexes_nodes.length 0 = some j) :
    s.indexes_nodes.getD j 0 < listOfNodes.length ∧
    (s.listOfNodes.getD (s.indexes_nodes.getD j 0) default).canAccept
      (listOfFiles.getD ((sortedFiles sort listOfFiles).getD k 0) default) = true ∧
    (∃ s1, allocateNodesUpTo sort (initialPlan listOfFiles) listOfFiles listOfNodes (k + 1)
        = some s1 ∧
      s1.distributionPlan.getD ((sortedFiles sort listOfFiles).getD k 0) 0
        = s.indexes_nodes.getD j 0 ∧
      s1.listOfNodes = s.listOfNodes.set (s.indexes_nodes.getD j 0)
        ((s.listOfNodes.getD (s.indexes_nodes.getD j 0) default).add
          (listOfFiles.getD ((sortedFiles sort listOfFiles).getD k 0) default))) ∧
    ∀ y, y < listOfNodes.length →
      (s.listOfNodes.getD y default).canAccept
        (listOfFiles.getD ((sortedFiles sort listOfFiles).getD k 0) default) = true →
      ¬ ((s.listOfNodes.getD y default).occupiedMemory <
          (s.listOfNodes.getD (s.indexes_nodes.getD j 0) default).occupiedMemory) ∧
      ¬ ((s.listOfNodes.getD y default).occupiedMemory =
          (s.listOfNodes.getD (s.indexes_nodes.getD j 0) default).occupiedMemory ∧
        (s.listOfNodes.getD y default).freeMemory >
          (s.listOfNodes.getD (s.indexes_nodes.getD j 0) default).freeMemory) := by
  have hN' : listOfNodes.length + listOfNodes.length ≤ SIZE_MOD := by
    rw [SIZE_MOD_eq]; omega
  obtain ⟨s0, hs0, hwf, hlen, _⟩ :=
    allocateNodesUpTo_wf hsort (initialPlan listOfFiles) listOfFiles hfresh hN' k
  rw [hs] at hs0
  cases hs0
  obtain ⟨hj, hx, hacc, hbefore, s1, hstep, _, hnodes, hplan⟩ :=
    allocStep_some hwf hN' listOfFiles _ j hscan
  refine ⟨hx, hacc, ⟨s1, ?_, ?_, hnodes⟩, ?_⟩
  · rw [allocateNodesUpTo_succ hsort _ _ _ k hk, hs]
    exact hstep
  · rw [hplan]
    refine getD_set_self _ _ _ _ ?_
    rw [hlen]
    unfold initialPlan
    rw [List.length_replicate]
    exact sortedFiles_lt hsort listOfFiles k hk
  · intro y hy hyacc
    have := first_accepting_least hwf _ j hj hbefore y hy hyacc
    rw [compareNodes_eq_false] at this
    omega

/-- Witness of C2 on scenario 1: the second iteration finds position 0, which
holds node `B`, and places `Y` there. -/
theorem C2_least_loaded_witness :
    allocateNodesUpTo stdSort (initialPlan filesXY) filesXY nodesAB 1 =
      some ⟨[⟨"A", 10, 6, 4⟩, ⟨"B", 5, 0, 5⟩], [0, 2], [1, 0]⟩ ∧
    scanNodes [⟨"A", 10, 6, 4⟩, ⟨"B", 5, 0, 5⟩] [1, 0] ⟨"Y", 4⟩ 2 0 = some 0 ∧
    ∃ s1, allocateNodesUpTo stdSort (initialPlan filesXY) filesXY nodesAB 2 = some s1 ∧
      s1.distributionPlan.getD 1 0 = 1 ∧
      s1.listOfNodes = [⟨"A", 10, 6, 4⟩, ⟨"B", 5, 4, 1⟩] :=
  ⟨by decide, by decide,
    (C2_least_loaded stdSort stdSort_contract filesXY nodesAB freshNodes_nodesAB (by decide)
      1 (by decide) ⟨[⟨"A", 10, 6, 4⟩, ⟨"B", 5, 0, 5⟩], [0, 2], [1, 0]⟩ 0
      (by decide) (by decide)).2.2.1⟩

/-- C3 (failing input): nodes `A(5)`, `B(10)` and the one file `X(6)`.  The scan
finds node `B` at position 0 of the order `[1, 0]`, `X` is added to `B`, and the
entry of `X` becomes 1, the index of `B`, which is also the number of files:
`main` prints `X NULL` for a file that was placed. -/
theorem C3_placed_file_reported_null :
    (initState stdSort (initialPlan filesX) nodesSmallBig).indexes_nodes = [1, 0] ∧
    scanNodes nodesSmallBig [1, 0] ⟨"X", 6⟩ 2 0 = some 0 ∧
    mainAllocate stdSort filesX nodesSmallBig =
      some ⟨[⟨"A", 5, 0, 5⟩, ⟨"B", 10, 6, 4⟩], [1], [0, 1]⟩ ∧
    report filesX [⟨"A", 5, 0, 5⟩, ⟨"B", 10, 6, 4⟩] [1] = [some "X NULL"] := by
  decide

/-- C4 (counterexample to the claim as stated): nodes `A(5)`, `B(4)` and the one
file `X(6)`.  No node accepts `X`, its entry keeps the value 1 given by `main`,
the number of files, which is also the index of node `B`: the sizes of the
files whose entry equals 1 add up to 6, more than the size 4 of node 1. -/
theorem C4_unplaced_file_counted :
    mainAllocate stdSort filesX nodesTooSmall =
      some ⟨nodesTooSmall, [1], [0, 1]⟩ ∧
    assignedSize filesX [1] 1 = 6 ∧
    (nodesTooSmall.getD 1 default).size = 4 ∧
    ¬ (assignedSize filesX [1] 1 ≤ (nodesTooSmall.getD 1 default).size) := by
  decide

/-- C5: in every state the pass reaches, every node keeps its size and has
`0 <= occupiedMemory <= size`, and its occupied memory in the next state is
not smaller. -/
theorem C5_capacity_invariant (sort : (Nat → Nat → Bool) → List Nat → List Nat)
    (hsort : StdSortContract sort) (distributionPlan : List Nat) (listOfFiles : List File)
    (listOfNodes : List Node) (hfresh : FreshNodes listOfNodes)
    (hN : listOfNodes.length ≤ 2 ^ 63) (k : Nat) :
    ∃ s s1, allocateNodesUpTo sort distributionPlan listOfFiles listOfNodes k = some s ∧
      allocateNodesUpTo sort distributionPlan listOfFiles listOfNodes (k + 1) = some s1 ∧
      s.listOfNodes.length = listOfNodes.length ∧
      ∀ i, i < listOfNodes.length →
        (s.listOfNodes.getD i default).size = (listOfNodes.getD i default).size ∧
        0 ≤ (s.listOfNodes.getD i default).occupiedMemory ∧
        (s.listOfNodes.getD i default).occupiedMemory ≤ (s.listOfNodes.getD i default).size ∧
        (s.listOfNodes.getD i default).occupiedMemory ≤
          (s1.listOfNodes.getD i default).occupiedMemory := by
  have hN' : listOfNodes.length + listOfNodes.length ≤ SIZE_MOD := by
    rw [SIZE_MOD_eq]; omega
  obtain ⟨s, hs, hwf, _, _, hnodes⟩ :=
    allocateNodesUpTo_wf hsort distributionPlan listOfFiles hfresh hN' k
  have hmono : ∃ s1, allocateNodesUpTo sort distributionPlan listOfFiles listOfNodes (k + 1)
      = some s1 ∧ ∀ i, (s.listOfNodes.getD i default).occupiedMemory ≤
          (s1.listOfNodes.getD i default).occupiedMemory := by
    by_cases hk : k < listOfFiles.length
    · obtain ⟨s1, hstep, _, _, _, h1⟩ :=
        allocStep_wf hwf hN' listOfFiles ((sortedFiles sort listOfFiles).getD k 0)
      refine ⟨s1, ?_, fun i => (h1 i).2⟩
      rw [allocateNodesUpTo_succ hsort _ _ _ k hk, hs]
      exact hstep
    · refine ⟨s, ?_, fun i => le_refl _⟩
      have hlen := sortedFiles_length hsort listOfFiles
      unfold allocateNodesUpTo at hs ⊢
      rw [List.take_of_length_le (by omega)] at hs ⊢
      exact hs
  obtain ⟨s1, hs1, hle⟩ := hmono
  refine ⟨s, s1, hs, hs1, hwf.length_nodes, ?_⟩
  intro i hi
  have hmem := hwf.memory _ (getD_mem s.listOfNodes i default (by rw [hwf.length_nodes]; exact hi))
  exact ⟨(hnodes i).1, Nat.zero_le _, by omega, hle i⟩

/-- Witness of C5 on scenario 1, around the first placement. -/
theorem C5_capacity_invariant_witness :
    StdSortContract stdSort ∧ FreshNodes nodesAB ∧ nodesAB.length ≤ 2 ^ 63 ∧
    ∃ s s1, allocateNodesUpTo stdSort (initialPlan filesXY) filesXY nodesAB 0 = some s ∧
      allocateNodesUpTo stdSort (initialPlan filesXY) filesXY nodesAB (0 + 1) = some s1 ∧
      s.listOfNodes.length = nodesAB.length ∧
      ∀ i, i < nodesAB.length →
        (s.listOfNodes.getD i default).size = (nodesAB.getD i default).size ∧
        0 ≤ (s.listOfNodes.getD i default).occupiedMemory ∧
        (s.listOfNodes.getD i default).occupiedMemory ≤ (s.listOfNodes.getD i default).size ∧
        (s.listOfNodes.getD i default).occupiedMemory ≤
          (s1.listOfNodes.getD i default).occupiedMemory :=
  ⟨stdSort_contract, freshNodes_nodesAB, by decide,
    C5_capacity_invariant stdSort stdSort_contract (initialPlan filesXY) filesXY nodesAB
      freshNodes_nodesAB (by decide) 0⟩

/-- C6: the assignment map `main` and `allocateNodes` produce has one entry per
file, and every entry is a node index below the number of nodes or equals the
number of files. -/
theorem C6_map_complete (sort : (Nat → Nat → Bool) → List Nat → List Nat)
    (hsort : StdSortContract sort) (listOfFiles : List File) (listOfNodes : List Node)
    (hfresh : FreshNodes listOfNodes) (hN : listOfNodes.length ≤ 2 ^ 63) :
    ∃ s, mainAllocate sort listOfFiles listOfNodes = some s ∧
      s.distributionPlan.length = listOfFiles.length ∧
      ∀ n_file, n_file < listOfFiles.length →
        s.distributionPlan.getD n_file 0 < listOfNodes.length ∨
        s.distributionPlan.getD n_file 0 = listOfFiles.length := by
  have hN' : listOfNodes.length + listOfNodes.length ≤ SIZE_MOD := by
    rw [SIZE_MOD_eq]; omega
  obtain ⟨s, hs, _, hlen, hplan, _⟩ :=
    allocateNodesUpTo_wf hsort (initialPlan listOfFiles) listOfFiles hfresh hN'
      listOfFiles.length
  rw [allocateNodesUpTo_length hsort] at hs
  have hlen' : s.distributionPlan.length = listOfFiles.length := by
    rw [hlen]; unfold initialPlan; rw [List.length_replicate]
  refine ⟨s, hs, hlen', ?_⟩
  intro n_file hn
  rcases hplan _ (getD_mem s.distributionPlan n_file 0 (by omega)) with h | h
  · right
    unfold initialPlan at h
    exact (List.mem_replicate.mp h).2
  · exact Or.inl h

/-- Witness of C6 on scenario 1. -/
theorem C6_map_complete_witness :
    StdSortContract stdSort ∧ FreshNodes nodesAB ∧ nodesAB.length ≤ 2 ^ 63 ∧
    ∃ s, mainAllocate stdSort filesXY nodesAB = some s ∧
      s.distributionPlan.length = filesXY.length ∧
      ∀ n_file, n_file < filesXY.length →
        s.distributionPlan.getD n_file 0 < nodesAB.length ∨
        s.distributionPlan.getD n_file 0 = filesXY.length :=
  ⟨stdSort_contract, freshNodes_nodesAB, by decide,
    C6_map_complete stdSort stdSort_contract filesXY nodesAB freshNodes_nodesAB (by decide)⟩

/-- C7: scenario 1.  Nodes `A(10)`, `B(5)` and files `X(6)`, `Y(4)`: the files
are processed in the order `X`, `Y`; the node order is `[A, B]` at the start and
`[B, A]` after `X` is placed; the final map sends `X` to node 0 and `Y` to node
1, and the output lines are `X A` and `Y B`. -/
theorem C7_scenario_one (sort : (Nat → Nat → Bool) → List Nat → List Nat)
    (hsort : StdSortContract sort) :
    sortedFiles sort filesXY = [0, 1] ∧
    (initState sort (initialPlan filesXY) nodesAB).indexes_nodes = [0, 1] ∧
    (∃ s1, allocateNodesUpTo sort (initialPlan filesXY) filesXY nodesAB 1 = some s1 ∧
      s1.distributionPlan.getD 0 0 = 0 ∧ s1.indexes_nodes = [1, 0]) ∧
    ∃ s, mainAllocate sort filesXY nodesAB = some s ∧ s.distributionPlan = [0, 1] ∧
      report filesXY s.listOfNodes s.distributionPlan = [some "X A", some "Y B"] := by
  have hf : sortedFiles sort filesXY = [0, 1] := by
    show sort (compareFiles filesXY) (List.range filesXY.length) = _
    rw [sort_eq_stdSort hsort (compareFiles_strictWeak _) _ (by decide)]
    decide
  have hi : initState sort (initialPlan filesXY) nodesAB =
      ⟨nodesAB, initialPlan filesXY, [0, 1]⟩ := by
    show State.mk nodesAB (initialPlan filesXY)
      (sort (compareNodes nodesAB) (List.range nodesAB.length)) = _
    rw [sort_eq_stdSort hsort (compareNodes_strictWeak _) _ (by decide)]
    decide
  refine ⟨hf, by rw [hi], ?_, ?_⟩
  · unfold allocateNodesUpTo
    rw [hf, hi]
    exact ⟨⟨[⟨"A", 10, 6, 4⟩, ⟨"B", 5, 0, 5⟩], [0, 2], [1, 0]⟩, by decide, by decide, rfl⟩
  · unfold mainAllocate allocateNodes
    rw [hf, hi]
    exact ⟨⟨[⟨"A", 10, 6, 4⟩, ⟨"B", 5, 4, 1⟩], [0, 1], [1, 0]⟩, by decide, rfl, by decide⟩

/-- Witness of C7 with the executable sorting routine. -/
theorem C7_scenario_one_witness :
    StdSortContract stdSort ∧
    sortedFiles stdSort filesXY = [0, 1] ∧
    (initState stdSort (initialPlan filesXY) nodesAB).indexes_nodes = [0, 1] ∧
    (∃ s1, allocateNodesUpTo stdSort (initialPlan filesXY) filesXY nodesAB 1 = some s1 ∧
      s1.distributionPlan.getD 0 0 = 0 ∧ s1.indexes_nodes = [1, 0]) ∧
    ∃ s, mainAllocate stdSort filesXY nodesAB = some s ∧ s.distributionPlan = [0, 1] ∧
      report filesXY s.listOfNodes s.distributionPlan = [some "X A", some "Y B"] :=
  ⟨stdSort_contract, C7_scenario_one stdSort stdSort_contract⟩

/-- C8: with at least one node, a file of size 0 is accepted at position 0 of
the current node order, its entry becomes the node at that position, and the
list of nodes (hence every occupied and free memory) stays as it was. -/
theorem C8_zero_size_file (sort : (Nat → Nat → Bool) → List Nat → List Nat)
    (hsort : StdSortContract sort) (listOfFiles : List File) (listOfNodes : List Node)
    (hfresh : FreshNodes listOfNodes) (hN : listOfNodes.length ≤ 2 ^ 63)
    (hpos : 0 < listOfNodes.length)
    (k : Nat) (hk : k < listOfFiles.length) (s : State)
    (hs : allocateNodesUpTo sort (initialPlan listOfFiles) listOfFiles listOfNodes k = some s)
    (hzero : (listOfFiles.getD ((sortedFiles sort listOfFiles).getD k 0) default).size = 0) :
    scanNodes s.listOfNodes s.indexes_nodes
      (listOfFiles.getD ((sortedFiles sort listOfFiles).getD k 0) default)
      s.indexes_nodes.length 0 = some 0 ∧
    (s.listOfNodes.getD (s.indexes_nodes.getD 0 0) default).canAccept
      (listOfFiles.getD ((sortedFiles sort listOfFiles).getD k 0) default) = true ∧
    ∃ s1, allocateNodesUpTo sort (initialPlan listOfFiles) listOfFiles listOfNodes (k + 1)
        = some s1 ∧
      s1.distributionPlan.getD ((sortedFiles sort listOfFiles).getD k 0) 0
        = s.indexes_nodes.getD 0 0 ∧
      s1.listOfNodes = s.listOfNodes := by
  have hN' : listOfNodes.length + listOfNodes.length ≤ SIZE_MOD := by
    rw [SIZE_MOD_eq]; omega
  obtain ⟨s0, hs0, hwf, hlen, _⟩ :=
    allocateNodesUpTo_wf hsort (initialPlan listOfFiles) listOfFiles hfresh hN' k
  rw [hs] at hs0
  cases hs0
  have hacc0 : ∀ node : Node, node.canAccept
      (listOfFiles.getD ((sortedFiles sort listOfFiles).getD k 0) default) = true := by
    intro node
    unfold Node.canAccept
    rw [hzero]
    exact decide_eq_true (Nat.zero_le _)
  have hscan : scanNodes s.listOfNodes s.indexes_nodes
      (listOfFiles.getD ((sortedFiles sort listOfFiles).getD k 0) default)
      s.indexes_nodes.length 0 = some 0 := by
    obtain ⟨n, hn⟩ : ∃ n, s.indexes_nodes.length = n + 1 :=
      ⟨s.indexes_nodes.length - 1, by rw [hwf.length_indexes]; omega⟩
    rw [hn]
    unfold scanNodes
    rw [hacc0]
    rfl
  obtain ⟨_, hx, hacc, _, s1, hstep, _, hnodes, hplan⟩ :=
    allocStep_some hwf hN' listOfFiles _ 0 hscan
  refine ⟨hscan, hacc0 _, s1, ?_, ?_, ?_⟩
  · rw [allocateNodesUpTo_succ hsort _ _ _ k hk, hs]
    exact hstep
  · rw [hplan]
    refine getD_set_self _ _ _ _ ?_
    rw [hlen]
    unfold initialPlan
    rw [List.length_replicate]
    exact sortedFiles_lt hsort listOfFiles k hk
  · rw [hnodes]
    have hxlen : s.indexes_nodes.getD 0 0 < s.listOfNodes.length := by
      rw [hwf.length_nodes]; exact hx
    have hnode := hwf.memory _ (getD_mem s.listOfNodes _ default hxlen)
    obtain ⟨h1, h2, h3, h4⟩ := Node.add_spec _
      (listOfFiles.getD ((sortedFiles sort listOfFiles).getD k 0) default)
      hnode.1 hnode.2 (hacc0 _)
    rw [hzero] at h1 h2
    have hsame : (s.listOfNodes.getD (s.indexes_nodes.getD 0 0) default).add
        (listOfFiles.getD ((sortedFiles sort listOfFiles).getD k 0) default) =
        s.listOfNodes.getD (s.indexes_nodes.getD 0 0) default := by
      generalize (s.listOfNodes.getD (s.indexes_nodes.getD 0 0) default).add
        (listOfFiles.getD ((sortedFiles sort listOfFiles).getD k 0) default) = node1 at *
      generalize s.listOfNodes.getD (s.indexes_nodes.getD 0 0) default = node0 at *
      cases node1; cases node0
      simp only [Node.mk.injEq] at *
      exact ⟨h4, h3, h1, h2⟩
    rw [hsame]
    exact set_getD_self default _ _

/-- Witness of C8: file `Z` of size 0 and the nodes of scenario 1. -/
theorem C8_zero_size_file_witness :
    allocateNodesUpTo stdSort (initialPlan filesZ) filesZ nodesAB 0 =
      some ⟨nodesAB, [1], [0, 1]⟩ ∧
    ∃ s1, allocateNodesUpTo stdSort (initialPlan filesZ) filesZ nodesAB (0 + 1)
        = some s1 ∧
      s1.distributionPlan.getD 0 0 = 0 ∧ s1.listOfNodes = nodesAB :=
  ⟨by decide,
    (C8_zero_size_file stdSort stdSort_contract filesZ nodesAB freshNodes_nodesAB
      (by decide) (by decide) 0 (by decide) ⟨nodesAB, [1], [0, 1]⟩ (by decide)
      (by decide)).2.2⟩

/-- C9: the pass finishes on degenerate inputs.  Without nodes every entry of
the map keeps the value `main` gave it, the number of files; without files the
map is empty and the list of nodes is returned as it was. -/
theorem C9_degenerate (sort : (Nat → Nat → Bool) → List Nat → List Nat)
    (hsort : StdSortContract sort) :
    (∀ listOfFiles : List File, ∃ s, mainAllocate sort listOfFiles [] = some s ∧
      s.listOfNodes = [] ∧
      s.distributionPlan.length = listOfFiles.length ∧
      ∀ n_file, n_file < listOfFiles.length →
        s.distributionPlan.getD n_file 0 = listOfFiles.length) ∧
    (∀ listOfNodes : List Node, ∃ s, mainAllocate sort [] listOfNodes = some s ∧
      s.distributionPlan = [] ∧ s.listOfNodes = listOfNodes) := by
  refine ⟨?_, ?_⟩
  · intro listOfFiles
    refine ⟨⟨[], initialPlan listOfFiles, []⟩, ?_, rfl, ?_, ?_⟩
    · unfold mainAllocate allocateNodes
      have hi : initState sort (initialPlan listOfFiles) [] =
          ⟨[], initialPlan listOfFiles, []⟩ := by
        show State.mk [] (initialPlan listOfFiles) (sort (compareNodes []) (List.range 0)) = _
        rw [List.range_zero, sort_nil hsort (compareNodes_strictWeak _)]
      rw [hi]
      exact allocLoop_no_nodes _ _ _ _
    · show (initialPlan listOfFiles).length = _
      unfold initialPlan
      rw [List.length_replicate]
    · intro n_file hn
      show (initialPlan listOfFiles).getD n_file 0 = _
      unfold initialPlan
      have hmem := getD_mem (List.replicate listOfFiles.length listOfFiles.length) n_file 0
        (by rw [List.length_replicate]; exact hn)
      exact (List.mem_replicate.mp hmem).2
  · intro listOfNodes
    refine ⟨initState sort (initialPlan []) listOfNodes, ?_, rfl, rfl⟩
    unfold mainAllocate allocateNodes
    have hf : sortedFiles sort [] = [] := by
      show sort (compareFiles []) (List.range 0) = _
      rw [List.range_zero, sort_nil hsort (compareFiles_strictWeak _)]
    rw [hf]
    rfl

/-- Witness of C9 with the executable sorting routine. -/
theorem C9_degenerate_witness :
    StdSortContract stdSort ∧
    (∃ s, mainAllocate stdSort filesXY [] = some s ∧ s.listOfNodes = [] ∧
      s.distributionPlan.length = filesXY.length ∧
      ∀ n_file, n_file < filesXY.length → s.distributionPlan.getD n_file 0 = filesXY.length) ∧
    (∃ s, mainAllocate stdSort [] nodesAB = some s ∧
      s.distributionPlan = [] ∧ s.listOfNodes = nodesAB) :=
  ⟨stdSort_contract, (C9_degenerate stdSort stdSort_contract).1 filesXY,
    (C9_degenerate stdSort stdSort_contract).2 nodesAB⟩

/-- A record line on which `processLines` stops with an error: it is not a
comment, has a first word, and has a third word or a second word that
`std::stoi` rejects or reads as a negative number. -/
theorem processLines_error {T : Type} (mk : String → Nat → T) :
    ∀ (lines : List (List Char)) (objectCollection : List T),
      (∃ line ∈ lines, line.head? ≠ some '#' ∧ (readWord line).1 ≠ [] ∧
        ((readWord (readWord (readWord line).2).2).1 ≠ [] ∨
          stoi (readWord (readWord line).2).1 = none ∨
          ∃ v, stoi (readWord (readWord line).2).1 = some v ∧ v < 0)) →
      (processLines mk lines objectCollection).1 = false := by
  intro lines
  induction lines with
  | nil => intro _ h; obtain ⟨_, hmem, _⟩ := h; cases hmem
  | cons line rest ih =>
    intro acc h
    unfold processLines
    by_cases hc : line.head? = some '#'
    · simp only [hc, if_true]
      obtain ⟨l, hl, h1, h2⟩ := h
      rcases List.mem_cons.mp hl with rfl | hl
      · exact absurd hc h1
      · exact ih acc ⟨l, hl, h1, h2⟩
    · simp only [hc, if_false]
      by_cases hn : (readWord line).1 = []
      · simp only [hn, if_true]
        obtain ⟨l, hl, h1, h2, h3⟩ := h
        rcases List.mem_cons.mp hl with rfl | hl
        · exact absurd hn h2
        · exact ih acc ⟨l, hl, h1, h2, h3⟩
      · simp only [hn, if_false]
        by_cases ho : (readWord (readWord (readWord line).2).2).1 = []
        · simp only [ho, ne_eq, not_true_eq_false, if_false]
          cases hst : stoi (readWord (readWord line).2).1 with
          | none => rfl
          | some v =>
            simp only []
            by_cases hv : v < 0
            · simp only [hv, if_true]
            · simp only [hv, if_false]
              obtain ⟨l, hl, h1, h2, h3⟩ := h
              rcases List.mem_cons.mp hl with rfl | hl
              · rcases h3 with h3 | h3 | ⟨w, h3, hw⟩
                · exact absurd ho h3
                · rw [hst] at h3; cases h3
                · rw [hst] at h3; cases h3; exact absurd hw hv
              · exact ih _ ⟨l, hl, h1, h2, h3⟩
        · simp only [ne_eq, ho, not_false_eq_true, if_true]

/-- C10 (failing input): the one-line text `A 12abc`.  The second field is not a
decimal integer, yet `processFile` returns true and stores `A` with size 12:
`std::stoi` reads the digits and ignores the rest of the field. -/
theorem C10_trailing_characters_accepted :
    getlines "A 12abc".data [] = ["A 12abc".data] ∧
    (readWord (readWord "A 12abc".data).2).1 = "12abc".data ∧
    stoi "12abc".data = some 12 ∧
    processFile File.mk (some "A 12abc") [] = (true, [⟨"A", 12⟩]) := by
  decide

/-! ## What one iteration writes -/

/-- An iteration writes at most the entry of its own file into the map. -/
theorem allocStep_plan (listOfFiles : List File) (idx_f : Nat) (s s1 : State)
    (h : allocStep listOfFiles idx_f s = some s1) :
    s1.distributionPlan = s.distributionPlan ∨
      ∃ x, s1.distributionPlan = s.distributionPlan.set idx_f x := by
  unfold allocStep at h
  simp only at h
  split at h
  · cases h; exact Or.inl rfl
  · unfold placeAt at h
    simp only at h
    split at h
    · cases h
    · cases h; exact Or.inr ⟨_, rfl⟩

/-- The outer loop leaves the entries of the files it does not process as they
are. -/
theorem allocLoop_plan_untouched (listOfFiles : List File) :
    ∀ (l : List Nat) (s s1 : State), allocLoop listOfFiles l s = some s1 →
      ∀ i, i ∉ l → s1.distributionPlan.getD i 0 = s.distributionPlan.getD i 0 := by
  intro l
  induction l with
  | nil => intro s s1 h i _; cases h; rfl
  | cons idx_f rest ih =>
    intro s s1 h i hi
    unfold allocLoop at h
    cases hstep : allocStep listOfFiles idx_f s with
    | none => rw [hstep] at h; cases h
    | some s2 =>
      rw [hstep] at h
      simp only at h
      have hne : idx_f ≠ i := fun e => hi (e ▸ List.mem_cons_self _ _)
      have hrest : i ∉ rest := fun e => hi (List.mem_cons_of_mem _ e)
      rw [ih s2 s1 h i hrest]
      rcases allocStep_plan listOfFiles idx_f s s2 hstep with h2 | ⟨x, h2⟩
      · rw [h2]
      · rw [h2, getD_set_ne _ _ _ _ _ hne]

/-- The state reached after `k` iterations is the one the invariant speaks
about. -/
theorem reached_wf {sort : (Nat → Nat → Bool) → List Nat → List Nat}
    (hsort : StdSortContract sort) (distributionPlan : List Nat) (listOfFiles : List File)
    {listOfNodes : List Node} (hfresh : FreshNodes listOfNodes)
    (hN : listOfNodes.length ≤ 2 ^ 63) {k : Nat} {s : State}
    (hs : allocateNodesUpTo sort distributionPlan listOfFiles listOfNodes k = some s) :
    listOfNodes.length + listOfNodes.length ≤ SIZE_MOD ∧
    WellFormed listOfNodes.length s ∧
    s.distributionPlan.length = distributionPlan.length ∧
    ∀ i, (s.listOfNodes.getD i default).size = (listOfNodes.getD i default).size := by
  have hN' : listOfNodes.length + listOfNodes.length ≤ SIZE_MOD := by
    rw [SIZE_MOD_eq]; omega
  obtain ⟨s0, hs0, hwf, hlen, _, hsz⟩ :=
    allocateNodesUpTo_wf hsort distributionPlan listOfFiles hfresh hN' k
  rw [hs] at hs0
  cases hs0
  exact ⟨hN', hwf, hlen, fun i => (hsz i).1⟩

/-- Before its iteration the entry of a file still has the value `main` gave
it, the number of files. -/
theorem entry_before_iteration {sort : (Nat → Nat → Bool) → List Nat → List Nat}
    (hsort : StdSortContract sort) (listOfFiles : List File) (listOfNodes : List Node)
    (k : Nat) (hk : k < listOfFiles.length) (s : State)
    (hs : allocateNodesUpTo sort (initialPlan listOfFiles) listOfFiles listOfNodes k = some s) :
    s.distributionPlan.getD ((sortedFiles sort listOfFiles).getD k 0) 0
      = listOfFiles.length := by
  have hlen := sortedFiles_length hsort listOfFiles
  have hk' : k < (sortedFiles sort listOfFiles).length := by omega
  have hnodup : (sortedFiles sort listOfFiles).Nodup :=
    (sortedFiles_perm hsort listOfFiles).nodup_iff.mpr (List.nodup_range _)
  have hnot : (sortedFiles sort listOfFiles).getD k 0 ∉ (sortedFiles sort listOfFiles).take k := by
    intro hmem
    obtain ⟨i, hi, heq⟩ := List.mem_take_iff_getElem.mp hmem
    rw [getD_eq_getElem_of_lt _ k 0 hk'] at heq
    have hik : i < k := by omega
    have := (List.Nodup.getElem_inj_iff hnodup).mp heq
    omega
  unfold allocateNodesUpTo at hs
  rw [allocLoop_plan_untouched listOfFiles _ _ _ hs _ hnot]
  show (initialPlan listOfFiles).getD _ 0 = _
  unfold initialPlan
  have hmem := getD_mem (List.replicate listOfFiles.length listOfFiles.length)
    ((sortedFiles sort listOfFiles).getD k 0) 0
    (by rw [List.length_replicate]; exact sortedFiles_lt hsort listOfFiles k hk)
  exact (List.mem_replicate.mp hmem).2

/-! ## The search loop without assumptions on the comparator -/

/-- For `output < up` the loop finishes within `up - output` iterations, whatever
the comparator says; it reads inside `[output, up)`, never tests a difference
of a smaller minus a larger value, and its result is the `output` of the last
test. -/
theorem findLoop_range (cmp : Nat → Nat → Bool) (c : List Nat) (dw : Nat) :
    ∀ fuel up output, output < up → up + up ≤ SIZE_MOD → up - output ≤ fuel →
      ∃ p, findLoop cmp c dw fuel up output = some p ∧ output ≤ p ∧ p < up ∧
        (∀ e ∈ findLoopTrace cmp c dw fuel up output,
          output ≤ e.1 ∧ e.1 < up ∧ e.2.2 ≤ e.2.1 ∧ e.2.1 ≤ up) ∧
        ((findLoopTrace cmp c dw fuel up output).getLast?).map (fun e => e.2.2) = some p := by
  intro fuel
  induction fuel with
  | zero => intro up output h1 _ h3; omega
  | succ fuel ih =>
    intro up output hlt hup hfuel
    have hS := SIZE_MOD_eq
    have hmp : addSize output up / 2 = (output + up) / 2 := by
      rw [addSize_eq (by omega)]
    have h1 : output ≤ (output + up) / 2 := by omega
    have h2 : (output + up) / 2 < up := by omega
    have h3 : output + 1 < up → output < (output + up) / 2 := by omega
    unfold findLoop findLoopTrace
    simp only [hmp]
    generalize (output + up) / 2 = mp at h1 h2 h3
    by_cases hc : cmp (c.getD dw 0) (c.getD mp 0) = true
    · simp only [hc, if_true]
      rw [subSize_eq h1 (by omega)]
      by_cases hw : mp - output ≤ 1
      · simp only [hw, if_true]
        refine ⟨output, rfl, le_refl _, hlt, ?_, rfl⟩
        intro e he
        rw [List.mem_singleton] at he
        subst he
        exact ⟨h1, h2, h1, le_of_lt h2⟩
      · simp only [hw, if_false]
        obtain ⟨p, hp, hp1, hp2, hp3, hp4⟩ := ih mp output (by omega) (by omega) (by omega)
        refine ⟨p, hp, hp1, by omega, ?_, ?_⟩
        · intro e he
          rcases List.mem_cons.mp he with rfl | he
          · exact ⟨h1, h2, h1, le_of_lt h2⟩
          · obtain ⟨e1, e2, e3, e4⟩ := hp3 e he
            exact ⟨e1, by omega, e3, by omega⟩
        · cases htr : findLoopTrace cmp c dw fuel mp output with
          | nil => rw [htr] at hp4; simp at hp4
          | cons a l => rw [htr] at hp4; rw [List.getLast?_cons_cons]; exact hp4
    · have hc' : cmp (c.getD dw 0) (c.getD mp 0) = false := by simpa using hc
      simp only [hc', Bool.false_eq_true, if_false]
      rw [subSize_eq (le_of_lt h2) (by omega)]
      by_cases hw : up - mp ≤ 1
      · simp only [hw, if_true]
        refine ⟨mp, rfl, h1, h2, ?_, rfl⟩
        intro e he
        rw [List.mem_singleton] at he
        subst he
        exact ⟨h1, h2, le_of_lt h2, le_refl _⟩
      · simp only [hw, if_false]
        obtain ⟨p, hp, hp1, hp2, hp3, hp4⟩ := ih up mp h2 hup (by omega)
        refine ⟨p, hp, by omega, hp2, ?_, ?_⟩
        · intro e he
          rcases List.mem_cons.mp he with rfl | he
          · exact ⟨h1, h2, le_of_lt h2, le_refl _⟩
          · obtain ⟨e1, e2, e3, e4⟩ := hp3 e he
            exact ⟨by omega, e2, e3, e4⟩
        · cases htr : findLoopTrace cmp c dw fuel up mp with
          | nil => rw [htr] at hp4; simp at hp4
          | cons a l => rw [htr] at hp4; rw [List.getLast?_cons_cons]; exact hp4

/-- C11: for a strict weak order under which the entries behind position `j`
are sorted, `findNewPositionInRange(j, n, c, comparator)` finishes and returns
the upper-bound position `p` of `c[j]`, `j <= p < n`: `c[j]` precedes no entry
at positions `j..p` and precedes every entry at positions `p+1..n-1`. -/
theorem C11_upper_bound_position (Comparator : Nat → Nat → Bool)
    (hcmp : StrictWeak Comparator) (c : List Nat) (j fuel : Nat)
    (hj : j < c.length) (hlen : c.length ≤ 2 ^ 63) (hfuel : c.length - j ≤ fuel)
    (hsorted : ∀ a b, j < a → a < b → b < c.length →
      Comparator (c.getD b 0) (c.getD a 0) = false) :
    ∃ p, findNewPositionInRange fuel j c.length c Comparator = some p ∧
      j ≤ p ∧ p < c.length ∧
      (∀ m, j ≤ m → m ≤ p → Comparator (c.getD j 0) (c.getD m 0) = false) ∧
      (∀ m, p < m → m < c.length → Comparator (c.getD j 0) (c.getD m 0) = true) := by
  obtain ⟨hirr, htr, hneg⟩ := hcmp
  have hS := SIZE_MOD_eq
  have hmono : ∀ a b, j < a → a ≤ b → b < c.length →
      Comparator (c.getD j 0) (c.getD a 0) = true →
      Comparator (c.getD j 0) (c.getD b 0) = true := by
    intro a b ha hab hb hPa
    by_cases heq : a = b
    · subst heq; exact hPa
    · have hs := hsorted a b ha (by omega) hb
      cases hPb : Comparator (c.getD j 0) (c.getD b 0)
      · have := hneg _ _ _ hPb hs
        rw [hPa] at this; cases this
      · rfl
  obtain ⟨p, hp, hp1, hp2, hp3, hp4⟩ := findLoop_spec Comparator c j
    (fun m => m ≤ j ∨ ∀ i, m ≤ i → i < c.length →
      Comparator (c.getD j 0) (c.getD i 0) = true)
    (by
      intro m hm
      by_cases hmj : m ≤ j
      · exact Or.inl hmj
      · right
        intro i hmi hi
        exact hmono m i (by omega) hmi hi hm)
    fuel c.length j hj (by omega) hfuel (hirr _)
    (Or.inr (fun i h1 h2 => by omega))
  refine ⟨p, hp, hp1, hp2, ?_, ?_⟩
  · intro m hm1 hm2
    by_cases hmj : m = j
    · subst hmj; exact hirr _
    · cases hPm : Comparator (c.getD j 0) (c.getD m 0)
      · rfl
      · have := hmono m p (by omega) hm2 hp2 hPm
        rw [hp3] at this; cases this
  · intro m hm1 hm2
    rcases hp4 with h | h
    · omega
    · exact h m (by omega) hm2

/-- Witness of C11: `[2, 0, 1]` under `<`, the entry 2 at position 0 belongs
behind both other entries. -/
theorem C11_upper_bound_position_witness :
    ∃ p, findNewPositionInRange 3 0 [2, 0, 1].length [2, 0, 1] (fun a b => decide (a < b))
        = some p ∧
      0 ≤ p ∧ p < [2, 0, 1].length ∧
      (∀ m, 0 ≤ m → m ≤ p →
        (fun a b => decide (a < b)) ([2, 0, 1].getD 0 0) ([2, 0, 1].getD m 0) = false) ∧
      (∀ m, p < m → m < [2, 0, 1].length →
        (fun a b => decide (a < b)) ([2, 0, 1].getD 0 0) ([2, 0, 1].getD m 0) = true) :=
  C11_upper_bound_position (fun a b => decide (a < b))
    ⟨fun a => by simp, fun a b c h1 h2 => by simp only [decide_eq_true_eq] at *; omega,
      fun a b c h1 h2 => by simp only [decide_eq_false_iff_not] at *; omega⟩
    [2, 0, 1] 0 3 (by decide) (by decide) (by decide)
    (by
      intro a b h1 h2 h3
      have ha : a = 1 := by simp only [List.length_cons, List.length_nil] at h3; omega
      have hb : b = 2 := by simp only [List.length_cons, List.length_nil] at h3; omega
      subst ha hb
      decide)

/-- C12: for `current <= target < length`, `swap` keeps the length, leaves the
entries before `current` and behind `target` where they are, moves each entry
of `(current, target]` one position down, and puts the entry of `current` at
`target`; for `current = target` the vector is unchanged. -/
theorem C12_swap_rotates (collection : List Nat) (current target : Nat)
    (hct : current ≤ target) (ht : target < collection.length) :
    (swap collection current target).length = collection.length ∧
    (∀ m, m < current →
      (swap collection current target).getD m 0 = collection.getD m 0) ∧
    (∀ m, target < m → m < collection.length →
      (swap collection current target).getD m 0 = collection.getD m 0) ∧
    (∀ m, current ≤ m → m < target →
      (swap collection current target).getD m 0 = collection.getD (m + 1) 0) ∧
    (swap collection current target).getD target 0 = collection.getD current 0 ∧
    (current = target → swap collection current target = collection) := by
  obtain ⟨L, R, hsplit, hL⟩ := split_at collection current (by omega)
  generalize hx : collection.getD current 0 = x at hsplit
  have hlen : collection.length = L.length + 1 + R.length := by
    rw [hsplit]; simp only [List.length_append, List.length_cons]; omega
  obtain ⟨k, hk⟩ : ∃ k, target = L.length + k := ⟨target - current, by omega⟩
  have hkR : k ≤ R.length := by omega
  have hsw : swap collection current target = L ++ (R.take k ++ x :: R.drop k) := by
    rw [hk, ← hL]
    conv_lhs => rw [hsplit]
    rw [swap_eq L x R k hkR, List.append_assoc]
  have htk : (R.take k).length = k := by rw [List.length_take]; omega
  refine ⟨?_, ?_, ?_, ?_, ?_, ?_⟩
  · rw [hsw, hlen]
    simp only [List.length_append, List.length_cons, List.length_take, List.length_drop]
    omega
  · intro m hm
    rw [hsw]
    conv_rhs => rw [hsplit]
    rw [List.getD_append _ _ _ _ (by omega), List.getD_append _ _ _ _ (by omega)]
  · intro m hm1 hm2
    obtain ⟨i, rfl⟩ : ∃ i, m = L.length + (k + 1 + i) := ⟨m - (L.length + (k + 1)), by omega⟩
    rw [hsw]
    conv_rhs => rw [hsplit]
    rw [getD_append_add, getD_append_add]
    have h1 : k + 1 + i = (R.take k).length + (1 + i) := by omega
    rw [h1, getD_append_add]
    have h2 : (R.take k).length + (1 + i) = ([x] ++ R.take k).length + i := by
      simp only [List.length_append, List.length_cons, List.length_nil]; omega
    have h3 : x :: R = [x] ++ R.take k ++ R.drop k := by
      rw [List.append_assoc, List.take_append_drop]; rfl
    rw [h2, h3, getD_append_add]
    have h4 : 1 + i = [x].length + i := by simp
    rw [h4]
    show ([x] ++ R.drop k).getD ([x].length + i) 0 = _
    rw [getD_append_add]
  · intro m hm1 hm2
    obtain ⟨i, rfl⟩ : ∃ i, m = L.length + i := ⟨m - L.length, by omega⟩
    have hi : i < k := by omega
    rw [hsw]
    conv_rhs => rw [hsplit]
    rw [getD_append_add, Nat.add_assoc, getD_append_add]
    rw [List.getD_append _ _ _ _ (by omega)]
    have h5 : (x :: R).getD (i + 1) 0 = R.getD i 0 := rfl
    rw [h5, List.getD_eq_getElem?_getD, List.getD_eq_getElem?_getD,
      List.getElem?_take_of_lt hi]
  · rw [hsw, hk, getD_append_add]
    have h6 := getD_append_length (R.take k) x (R.drop k) 0
    rw [htk] at h6
    exact h6
  · intro h
    unfold swap
    simp only [h, if_true]

/-- Witness of C12: the entry at position 1 of `[5, 6, 7, 8]` moves to position 3. -/
theorem C12_swap_rotates_witness :
    swap [5, 6, 7, 8] 1 3 = [5, 7, 8, 6] ∧
    (swap [5, 6, 7, 8] 1 3).getD 3 0 = [5, 6, 7, 8].getD 1 0 :=
  ⟨by decide, (C12_swap_rotates [5, 6, 7, 8] 1 3 (by decide) (by decide)).2.2.2.2.1⟩

theorem chosenNode_eq_some {listOfFiles : List File} {idx_f : Nat} {s : State} {x : Nat}
    (h : chosenNode listOfFiles idx_f s = some x) :
    ∃ j, scanNodes s.listOfNodes s.indexes_nodes (listOfFiles.getD idx_f default)
        s.indexes_nodes.length 0 = some j ∧ s.indexes_nodes.getD j 0 = x := by
  unfold chosenNode at h
  split at h
  · cases h
  · rename_i j hj
    cases h
    exact ⟨j, hj, rfl⟩

/-- C13: an iteration that places its file `idx_f` into node `x` finishes; the
entry of the file becomes `x`, node `x` gains exactly the file's size in
occupied memory (and loses it in free memory), every other node and every
other entry of the map stay as they are.  The files are an argument of the
step that the state returned does not contain: the source never writes to
them. -/
theorem C13_placement_frame (sort : (Nat → Nat → Bool) → List Nat → List Nat)
    (hsort : StdSortContract sort) (listOfFiles : List File) (listOfNodes : List Node)
    (hfresh : FreshNodes listOfNodes) (hN : listOfNodes.length ≤ 2 ^ 63)
    (k : Nat) (hk : k < listOfFiles.length) (s : State) (x : Nat)
    (hs : allocateNodesUpTo sort (initialPlan listOfFiles) listOfFiles listOfNodes k = some s)
    (hplaced : chosenNode listOfFiles ((sortedFiles sort listOfFiles).getD k 0) s = some x) :
    ∃ s1, allocateNodesUpTo sort (initialPlan listOfFiles) listOfFiles listOfNodes (k + 1)
        = some s1 ∧
      s1.distributionPlan.getD ((sortedFiles sort listOfFiles).getD k 0) 0 = x ∧
      (s1.listOfNodes.getD x default).occupiedMemory =
        (s.listOfNodes.getD x default).occupiedMemory +
          (listOfFiles.getD ((sortedFiles sort listOfFiles).getD k 0) default).size ∧
      (s1.listOfNodes.getD x default).freeMemory +
          (listOfFiles.getD ((sortedFiles sort listOfFiles).getD k 0) default).size =
        (s.listOfNodes.getD x default).freeMemory ∧
      (∀ y, y ≠ x → s1.listOfNodes.getD y default = s.listOfNodes.getD y default) ∧
      (∀ i, i ≠ (sortedFiles sort listOfFiles).getD k 0 →
        s1.distributionPlan.getD i 0 = s.distributionPlan.getD i 0) ∧
      s1.listOfNodes.length = s.listOfNodes.length ∧
      s1.distributionPlan.length = s.distributionPlan.length := by
  obtain ⟨hN', hwf, hlen, _⟩ := reached_wf hsort _ listOfFiles hfresh hN hs
  obtain ⟨j, hscan, hjx⟩ := chosenNode_eq_some hplaced
  obtain ⟨_, hx, hacc, _, s1, hstep, _, hnodes, hplan⟩ :=
    allocStep_some hwf hN' listOfFiles _ j hscan
  rw [hjx] at hx hnodes hplan
  unfold acceptsAt at hacc
  rw [hjx] at hacc
  have hxlen : x < s.listOfNodes.length := by rw [hwf.length_nodes]; exact hx
  have hnode := hwf.memory _ (getD_mem s.listOfNodes x default hxlen)
  obtain ⟨h1, h2, _, _⟩ := Node.add_spec _ _ hnode.1 hnode.2 hacc
  refine ⟨s1, ?_, ?_, ?_, ?_, ?_, ?_, ?_, ?_⟩
  · rw [allocateNodesUpTo_succ hsort _ _ _ k hk, hs]
    exact hstep
  · rw [hplan]
    refine getD_set_self _ _ _ _ ?_
    rw [hlen]
    unfold initialPlan
    rw [List.length_replicate]
    exact sortedFiles_lt hsort listOfFiles k hk
  · rw [hnodes, getD_set_self _ _ _ _ hxlen]; exact h1
  · rw [hnodes, getD_set_self _ _ _ _ hxlen]; exact h2
  · intro y hy
    rw [hnodes, getD_set_ne _ _ _ _ _ (Ne.symm hy)]
  · intro i hi
    rw [hplan, getD_set_ne _ _ _ _ _ (Ne.symm hi)]
  · rw [hnodes, List.length_set]
  · rw [hplan, List.length_set]

/-- Witness of C13 on scenario 1: the first iteration places `X` into node 0. -/
theorem C13_placement_frame_witness :
    allocateNodesUpTo stdSort (initialPlan filesXY) filesXY nodesAB 0 =
      some ⟨nodesAB, [2, 2], [0, 1]⟩ ∧
    chosenNode filesXY 0 ⟨nodesAB, [2, 2], [0, 1]⟩ = some 0 ∧
    ∃ s1, allocateNodesUpTo stdSort (initialPlan filesXY) filesXY nodesAB (0 + 1) = some s1 ∧
      s1.distributionPlan.getD 0 0 = 0 ∧
      (s1.listOfNodes.getD 0 default).occupiedMemory = 0 + 6 ∧
      (s1.listOfNodes.getD 0 default).freeMemory + 6 = 10 ∧
      (∀ y, y ≠ 0 → s1.listOfNodes.getD y default = nodesAB.getD y default) ∧
      (∀ i, i ≠ 0 → s1.distributionPlan.getD i 0 = [2, 2].getD i 0) ∧
      s1.listOfNodes.length = 2 ∧ s1.distributionPlan.length = 2 :=
  ⟨by decide, by decide,
    C13_placement_frame stdSort stdSort_contract filesXY nodesAB freshNodes_nodesAB
      (by decide) 0 (by decide) ⟨nodesAB, [2, 2], [0, 1]⟩ 0 (by decide) (by decide)⟩

/-- C14: an iteration in whose state no node accepts the file finds nothing in
its scan and returns the state as it is (same nodes, same map, same order
sequence); the entry of the file is the number of files before and after. -/
theorem C14_unplaced_frame (sort : (Nat → Nat → Bool) → List Nat → List Nat)
    (hsort : StdSortContract sort) (listOfFiles : List File) (listOfNodes : List Node)
    (hfresh : FreshNodes listOfNodes) (hN : listOfNodes.length ≤ 2 ^ 63)
    (k : Nat) (hk : k < listOfFiles.length) (s : State)
    (hs : allocateNodesUpTo sort (initialPlan listOfFiles) listOfFiles listOfNodes k = some s)
    (hnone : ∀ y, y < listOfNodes.length →
      (s.listOfNodes.getD y default).canAccept
        (listOfFiles.getD ((sortedFiles sort listOfFiles).getD k 0) default) = false) :
    scanNodes s.listOfNodes s.indexes_nodes
      (listOfFiles.getD ((sortedFiles sort listOfFiles).getD k 0) default)
      s.indexes_nodes.length 0 = none ∧
    allocateNodesUpTo sort (initialPlan listOfFiles) listOfFiles listOfNodes (k + 1) = some s ∧
    s.distributionPlan.getD ((sortedFiles sort listOfFiles).getD k 0) 0 = listOfFiles.length := by
  obtain ⟨hN', hwf, _, _⟩ := reached_wf hsort _ listOfFiles hfresh hN hs
  have hscan : scanNodes s.listOfNodes s.indexes_nodes
      (listOfFiles.getD ((sortedFiles sort listOfFiles).getD k 0) default)
      s.indexes_nodes.length 0 = none := by
    cases hsc : scanNodes s.listOfNodes s.indexes_nodes
      (listOfFiles.getD ((sortedFiles sort listOfFiles).getD k 0) default)
      s.indexes_nodes.length 0 with
    | none => rfl
    | some j =>
      obtain ⟨_, hj, hacc, _⟩ := scanNodes_some _ _ _ hsc
      have hjN : j < listOfNodes.length := by
        rw [← hwf.length_indexes]; omega
      rw [hnone _ (hwf.index_lt j hjN)] at hacc
      cases hacc
  refine ⟨hscan, ?_, entry_before_iteration hsort listOfFiles listOfNodes k hk s hs⟩
  rw [allocateNodesUpTo_succ hsort _ _ _ k hk, hs]
  exact (allocStep_none hwf listOfFiles _ hscan).1

/-- Witness of C14: file `X(6)` with nodes `A(5)`, `B(4)`. -/
theorem C14_unplaced_frame_witness :
    allocateNodesUpTo stdSort (initialPlan filesX) filesX nodesTooSmall 0 =
      some ⟨nodesTooSmall, [1], [0, 1]⟩ ∧
    allocateNodesUpTo stdSort (initialPlan filesX) filesX nodesTooSmall (0 + 1) =
      some ⟨nodesTooSmall, [1], [0, 1]⟩ ∧
    (State.mk nodesTooSmall [1] [0, 1]).distributionPlan.getD 0 0 = filesX.length :=
  ⟨by decide,
    (C14_unplaced_frame stdSort stdSort_contract filesX nodesTooSmall
      (by unfold FreshNodes; decide) (by decide) 0 (by decide)
      ⟨nodesTooSmall, [1], [0, 1]⟩ (by decide)
      (by
        intro y hy
        have : y = 0 ∨ y = 1 := by
          simp only [nodesTooSmall, List.length_cons, List.length_nil] at hy; omega
        rcases this with rfl | rfl <;> decide)).2⟩

/-- C15: the file order sequence has one entry per file and is ordered by size
descending: an earlier entry names a file at least as large as a later one. -/
theorem C15_files_largest_first (sort : (Nat → Nat → Bool) → List Nat → List Nat)
    (hsort : StdSortContract sort) (listOfFiles : List File) :
    (sortedFiles sort listOfFiles).length = listOfFiles.length ∧
    ∀ a b, a < b → b < (sortedFiles sort listOfFiles).length →
      (listOfFiles.getD ((sortedFiles sort listOfFiles).getD a 0) default).size ≥
        (listOfFiles.getD ((sortedFiles sort listOfFiles).getD b 0) default).size := by
  refine ⟨sortedFiles_length hsort listOfFiles, ?_⟩
  intro a b hab hb
  have hsorted : SortedBy (compareFiles listOfFiles) (sortedFiles sort listOfFiles) :=
    (hsort _ _ (compareFiles_strictWeak listOfFiles)).2
  have := List.pairwise_iff_getElem.mp hsorted a b (by omega) hb hab
  rw [getD_eq_getElem_of_lt _ a 0 (by omega), getD_eq_getElem_of_lt _ b 0 hb]
  unfold compareFiles at this
  simp only [decide_eq_false_iff_not] at this
  exact Nat.le_of_not_lt this

/-- Witness of C15 on scenario 1. -/
theorem C15_files_largest_first_witness :
    StdSortContract stdSort ∧
    (sortedFiles stdSort filesXY).length = filesXY.length ∧
    ∀ a b, a < b → b < (sortedFiles stdSort filesXY).length →
      (filesXY.getD ((sortedFiles stdSort filesXY).getD a 0) default).size ≥
        (filesXY.getD ((sortedFiles stdSort filesXY).getD b 0) default).size :=
  ⟨stdSort_contract, C15_files_largest_first stdSort stdSort_contract filesXY⟩

/-- C16: the file order sequence is a rearrangement of `0..F-1`, and in every
state the pass reaches (after the initial sort and after each iteration) the
node order sequence is a rearrangement of `0..N-1`. -/
theorem C16_index_sequences_permutations (sort : (Nat → Nat → Bool) → List Nat → List Nat)
    (hsort : StdSortContract sort) (distributionPlan : List Nat) (listOfFiles : List File)
    (listOfNodes : List Node) (hfresh : FreshNodes listOfNodes)
    (hN : listOfNodes.length ≤ 2 ^ 63) (k : Nat) :
    (sortedFiles sort listOfFiles).Perm (List.range listOfFiles.length) ∧
    ∃ s, allocateNodesUpTo sort distributionPlan listOfFiles listOfNodes k = some s ∧
      s.indexes_nodes.Perm (List.range listOfNodes.length) := by
  have hN' : listOfNodes.length + listOfNodes.length ≤ SIZE_MOD := by
    rw [SIZE_MOD_eq]; omega
  obtain ⟨s, hs, hwf, _⟩ :=
    allocateNodesUpTo_wf hsort distributionPlan listOfFiles hfresh hN' k
  exact ⟨sortedFiles_perm hsort listOfFiles, s, hs, hwf.perm⟩

/-- Witness of C16 on scenario 1, after both iterations. -/
theorem C16_index_sequences_permutations_witness :
    StdSortContract stdSort ∧ FreshNodes nodesAB ∧ nodesAB.length ≤ 2 ^ 63 ∧
    (sortedFiles stdSort filesXY).Perm (List.range filesXY.length) ∧
    ∃ s, allocateNodesUpTo stdSort (initialPlan filesXY) filesXY nodesAB 2 = some s ∧
      s.indexes_nodes.Perm (List.range nodesAB.length) :=
  ⟨stdSort_contract, freshNodes_nodesAB, by decide,
    C16_index_sequences_permutations stdSort stdSort_contract (initialPlan filesXY) filesXY
      nodesAB freshNodes_nodesAB (by decide) 2⟩

/-- C17: for `dw < up <= n` and any comparator, the loop of
`findNewPositionInRange` finishes within `up - dw` iterations and returns `p`
with `dw <= p < up`; every index it reads (`dw` and each `mp`) lies in
`[dw, up)`, hence inside the vector, and every tested difference `up - output`
has `output <= up`, so the unsigned subtraction does not wrap. -/
theorem C17_search_terminates_in_bounds (Comparator : Nat → Nat → Bool)
    (collection : List Nat) (dw up fuel : Nat)
    (hdw : dw < up) (hup : up ≤ collection.length) (hlen : collection.length ≤ 2 ^ 63)
    (hfuel : up - dw ≤ fuel) :
    ∃ p, findNewPositionInRange fuel dw up collection Comparator = some p ∧
      dw ≤ p ∧ p < up ∧ dw < collection.length ∧
      (∀ e ∈ findLoopTrace Comparator collection dw fuel up dw,
        dw ≤ e.1 ∧ e.1 < up ∧ e.1 < collection.length ∧
        e.2.2 ≤ e.2.1 ∧ subSize e.2.1 e.2.2 = e.2.1 - e.2.2) ∧
      ((findLoopTrace Comparator collection dw fuel up dw).getLast?).map (fun e => e.2.2)
        = some p := by
  have hS := SIZE_MOD_eq
  obtain ⟨p, hp, hp1, hp2, hp3, hp4⟩ :=
    findLoop_range Comparator collection dw fuel up dw hdw (by omega) hfuel
  refine ⟨p, hp, hp1, hp2, by omega, ?_, hp4⟩
  intro e he
  obtain ⟨e1, e2, e3, e4⟩ := hp3 e he
  exact ⟨e1, e2, by omega, e3, subSize_eq e3 (by omega)⟩

/-- Witness of C17: a comparator that always answers true. -/
theorem C17_search_terminates_in_bounds_witness :
    ∃ p, findNewPositionInRange 3 0 3 [3, 1, 2] (fun _ _ => true) = some p ∧
      0 ≤ p ∧ p < 3 ∧ 0 < [3, 1, 2].length ∧
      (∀ e ∈ findLoopTrace (fun _ _ => true) [3, 1, 2] 0 3 3 0,
        0 ≤ e.1 ∧ e.1 < 3 ∧ e.1 < [3, 1, 2].length ∧
        e.2.2 ≤ e.2.1 ∧ subSize e.2.1 e.2.2 = e.2.1 - e.2.2) ∧
      ((findLoopTrace (fun _ _ => true) [3, 1, 2] 0 3 3 0).getLast?).map (fun e => e.2.2)
        = some p :=
  C17_search_terminates_in_bounds (fun _ _ => true) [3, 1, 2] 0 3 3
    (by decide) (by decide) (by decide) (by decide)

/-- C18: in every state the pass reaches, every node has `occupiedMemory +
freeMemory = size`, and `Node::add` of any file the node accepts computes the
exact sum and difference: neither the addition nor the subtraction wraps. -/
theorem C18_free_is_size_minus_occupied (sort : (Nat → Nat → Bool) → List Nat → List Nat)
    (hsort : StdSortContract sort) (distributionPlan : List Nat) (listOfFiles : List File)
    (listOfNodes : List Node) (hfresh : FreshNodes listOfNodes)
    (hN : listOfNodes.length ≤ 2 ^ 63) (k : Nat) :
    ∃ s, allocateNodesUpTo sort distributionPlan listOfFiles listOfNodes k = some s ∧
      ∀ i, i < listOfNodes.length →
        (s.listOfNodes.getD i default).size = (listOfNodes.getD i default).size ∧
        (s.listOfNodes.getD i default).occupiedMemory +
          (s.listOfNodes.getD i default).freeMemory = (s.listOfNodes.getD i default).size ∧
        ∀ file : File, (s.listOfNodes.getD i default).canAccept file = true →
          file.size ≤ (s.listOfNodes.getD i default).freeMemory ∧
          ((s.listOfNodes.getD i default).add file).freeMemory =
            (s.listOfNodes.getD i default).freeMemory - file.size ∧
          ((s.listOfNodes.getD i default).add file).occupiedMemory =
            (s.listOfNodes.getD i default).occupiedMemory + file.size ∧
          ((s.listOfNodes.getD i default).add file).occupiedMemory +
            ((s.listOfNodes.getD i default).add file).freeMemory =
              ((s.listOfNodes.getD i default).add file).size := by
  have hN' : listOfNodes.length + listOfNodes.length ≤ SIZE_MOD := by
    rw [SIZE_MOD_eq]; omega
  obtain ⟨s, hs, hwf, _, _, hsz⟩ :=
    allocateNodesUpTo_wf hsort distributionPlan listOfFiles hfresh hN' k
  refine ⟨s, hs, ?_⟩
  intro i hi
  have hmem := hwf.memory _
    (getD_mem s.listOfNodes i default (by rw [hwf.length_nodes]; exact hi))
  refine ⟨(hsz i).1, hmem.1, ?_⟩
  intro file hacc
  obtain ⟨h1, h2, h3, _⟩ := Node.add_spec _ file hmem.1 hmem.2 hacc
  have hle : file.size ≤ (s.listOfNodes.getD i default).freeMemory := by
    simpa [Node.canAccept] using hacc
  exact ⟨hle, by omega, h1, by omega⟩

/-- Witness of C18 on scenario 1, after the first placement. -/
theorem C18_free_is_size_minus_occupied_witness :
    StdSortContract stdSort ∧ FreshNodes nodesAB ∧ nodesAB.length ≤ 2 ^ 63 ∧
    ∃ s, allocateNodesUpTo stdSort (initialPlan filesXY) filesXY nodesAB 1 = some s ∧
      ∀ i, i < nodesAB.length →
        (s.listOfNodes.getD i default).size = (nodesAB.getD i default).size ∧
        (s.listOfNodes.getD i default).occupiedMemory +
          (s.listOfNodes.getD i default).freeMemory = (s.listOfNodes.getD i default).size ∧
        ∀ file : File, (s.listOfNodes.getD i default).canAccept file = true →
          file.size ≤ (s.listOfNodes.getD i default).freeMemory ∧
          ((s.listOfNodes.getD i default).add file).freeMemory =
            (s.listOfNodes.getD i default).freeMemory - file.size ∧
          ((s.listOfNodes.getD i default).add file).occupiedMemory =
            (s.listOfNodes.getD i default).occupiedMemory + file.size ∧
          ((s.listOfNodes.getD i default).add file).occupiedMemory +
            ((s.listOfNodes.getD i default).add file).freeMemory =
              ((s.listOfNodes.getD i default).add file).size :=
  ⟨stdSort_contract, freshNodes_nodesAB, by decide,
    C18_free_is_size_minus_occupied stdSort stdSort_contract (initialPlan filesXY) filesXY
      nodesAB freshNodes_nodesAB (by decide) 1⟩

/-- The outer loop adds to the occupied memory of each node exactly the sizes
of the files whose scan finds that node. -/
theorem placedSize_spec {N : Nat} (hN : N + N ≤ SIZE_MOD) (listOfFiles : List File) :
    ∀ (l : List Nat) (s : State), WellFormed N s →
    ∃ s1, allocLoop listOfFiles l s = some s1 ∧ WellFormed N s1 ∧
      ∀ y, y < N → (s1.listOfNodes.getD y default).occupiedMemory =
        (s.listOfNodes.getD y default).occupiedMemory + placedSize listOfFiles y l s := by
  intro l
  induction l with
  | nil =>
    intro s hwf
    exact ⟨s, rfl, hwf, fun y _ => rfl⟩
  | cons idx_f rest ih =>
    intro s hwf
    cases hscan : scanNodes s.listOfNodes s.indexes_nodes (listOfFiles.getD idx_f default)
        s.indexes_nodes.length 0 with
    | none =>
      have hstep := (allocStep_none hwf listOfFiles idx_f hscan).1
      have hch : chosenNode listOfFiles idx_f s = none := by
        unfold chosenNode; simp only [hscan]
      obtain ⟨s2, hloop, hwf2, hocc⟩ := ih s hwf
      refine ⟨s2, ?_, hwf2, ?_⟩
      · unfold allocLoop
        simp only [hstep]
        exact hloop
      · intro y hy
        unfold placedSize
        simp only [hch, hstep]
        rw [if_neg (show ¬ (none = some y) from fun h => by cases h), Nat.zero_add]
        exact hocc y hy
    | some j =>
      obtain ⟨_, hx, hacc, _, s1, hstep, hwf1, hnodes, _⟩ :=
        allocStep_some hwf hN listOfFiles idx_f j hscan
      have hch : chosenNode listOfFiles idx_f s = some (s.indexes_nodes.getD j 0) := by
        unfold chosenNode; simp only [hscan]
      obtain ⟨s2, hloop, hwf2, hocc⟩ := ih s1 hwf1
      have hxlen : s.indexes_nodes.getD j 0 < s.listOfNodes.length := by
        rw [hwf.length_nodes]; exact hx
      have hnode := hwf.memory _ (getD_mem s.listOfNodes _ default hxlen)
      obtain ⟨h1, _, _, _⟩ := Node.add_spec _ (listOfFiles.getD idx_f default)
        hnode.1 hnode.2 hacc
      refine ⟨s2, ?_, hwf2, ?_⟩
      · unfold allocLoop
        simp only [hstep]
        exact hloop
      · intro y hy
        unfold placedSize
        simp only [hch, hstep, Option.some.injEq]
        rw [hocc y hy, hnodes]
        by_cases hyx : s.indexes_nodes.getD j 0 = y
        · subst hyx
          simp only [if_true]
          rw [getD_set_self _ _ _ _ hxlen, h1]
          omega
        · simp only [hyx, if_false]
          rw [getD_set_ne _ _ _ _ _ hyx]
          omega

/-- C19: `allocateNodes` finishes, and afterwards the occupied memory of every
node is the total size of the files whose scan found that node, and its free
memory is its size minus that total. -/
theorem C19_occupied_is_placed_total (sort : (Nat → Nat → Bool) → List Nat → List Nat)
    (hsort : StdSortContract sort) (distributionPlan : List Nat) (listOfFiles : List File)
    (listOfNodes : List Node) (hfresh : FreshNodes listOfNodes)
    (hN : listOfNodes.length ≤ 2 ^ 63) :
    ∃ s, allocateNodes sort distributionPlan listOfFiles listOfNodes = some s ∧
      ∀ y, y < listOfNodes.length →
        (s.listOfNodes.getD y default).occupiedMemory =
          placedSize listOfFiles y (sortedFiles sort listOfFiles)
            (initState sort distributionPlan listOfNodes) ∧
        placedSize listOfFiles y (sortedFiles sort listOfFiles)
            (initState sort distributionPlan listOfNodes) ≤ (listOfNodes.getD y default).size ∧
        (s.listOfNodes.getD y default).freeMemory =
          (listOfNodes.getD y default).size -
            placedSize listOfFiles y (sortedFiles sort listOfFiles)
              (initState sort distributionPlan listOfNodes) := by
  have hN' : listOfNodes.length + listOfNodes.length ≤ SIZE_MOD := by
    rw [SIZE_MOD_eq]; omega
  have hwf0 := initState_wf hsort distributionPlan hfresh
  obtain ⟨s, hs, hwf, hocc⟩ :=
    placedSize_spec hN' listOfFiles (sortedFiles sort listOfFiles) _ hwf0
  obtain ⟨s', hs', _, _, _, hsz⟩ :=
    allocLoop_wf hN' listOfFiles (sortedFiles sort listOfFiles) _ hwf0
  rw [hs] at hs'
  cases hs'
  refine ⟨s, hs, ?_⟩
  intro y hy
  have h0 : ((initState sort distributionPlan listOfNodes).listOfNodes.getD y
      default).occupiedMemory = 0 :=
    (hfresh _ (getD_mem listOfNodes y default hy)).1
  have hmem := hwf.memory _
    (getD_mem s.listOfNodes y default (by rw [hwf.length_nodes]; exact hy))
  have hocc' := hocc y hy
  rw [h0, Nat.zero_add] at hocc'
  have hsize : (s.listOfNodes.getD y default).size = (listOfNodes.getD y default).size :=
    (hsz y).1
  refine ⟨hocc', by omega, by omega⟩

/-- Witness of C19 on scenario 1. -/
theorem C19_occupied_is_placed_total_witness :
    placedSize filesXY 0 (sortedFiles stdSort filesXY)
      (initState stdSort (initialPlan filesXY) nodesAB) = 6 ∧
    placedSize filesXY 1 (sortedFiles stdSort filesXY)
      (initState stdSort (initialPlan filesXY) nodesAB) = 4 ∧
    ∃ s, allocateNodes stdSort (initialPlan filesXY) filesXY nodesAB = some s ∧
      ∀ y, y < nodesAB.length →
        (s.listOfNodes.getD y default).occupiedMemory =
          placedSize filesXY y (sortedFiles stdSort filesXY)
            (initState stdSort (initialPlan filesXY) nodesAB) ∧
        placedSize filesXY y (sortedFiles stdSort filesXY)
            (initState stdSort (initialPlan filesXY) nodesAB) ≤ (nodesAB.getD y default).size ∧
        (s.listOfNodes.getD y default).freeMemory =
          (nodesAB.getD y default).size -
            placedSize filesXY y (sortedFiles stdSort filesXY)
              (initState stdSort (initialPlan filesXY) nodesAB) :=
  ⟨by decide, by decide,
    C19_occupied_is_placed_total stdSort stdSort_contract (initialPlan filesXY) filesXY nodesAB
      freshNodes_nodesAB (by decide)⟩

/-- C20: a file that no node accepts in the state of its iteration is, at the
end of the pass, strictly larger than the free memory of every node. -/
theorem C20_unplaced_fits_nowhere (sort : (Nat → Nat → Bool) → List Nat → List Nat)
    (hsort : StdSortContract sort) (distributionPlan : List Nat) (listOfFiles : List File)
    (listOfNodes : List Node) (hfresh : FreshNodes listOfNodes)
    (hN : listOfNodes.length ≤ 2 ^ 63) (k : Nat) (s : State)
    (hs : allocateNodesUpTo sort distributionPlan listOfFiles listOfNodes k = some s)
    (hnone : ∀ y, y < listOfNodes.length →
      (s.listOfNodes.getD y default).canAccept
        (listOfFiles.getD ((sortedFiles sort listOfFiles).getD k 0) default) = false) :
    ∃ sf, allocateNodes sort distributionPlan listOfFiles listOfNodes = some sf ∧
      ∀ y, y < listOfNodes.length →
        (sf.listOfNodes.getD y default).freeMemory <
          (listOfFiles.getD ((sortedFiles sort listOfFiles).getD k 0) default).size := by
  obtain ⟨hN', hwf, _, _⟩ := reached_wf hsort _ listOfFiles hfresh hN hs
  obtain ⟨sf, hsf, hwff, _, _, hgrow⟩ :=
    allocLoop_wf hN' listOfFiles ((sortedFiles sort listOfFiles).drop k) s hwf
  refine ⟨sf, ?_, ?_⟩
  · unfold allocateNodes
    unfold allocateNodesUpTo at hs
    rw [← List.take_append_drop k (sortedFiles sort listOfFiles), allocLoop_append, hs]
    exact hsf
  · intro y hy
    have hm := hwf.memory _
      (getD_mem s.listOfNodes y default (by rw [hwf.length_nodes]; exact hy))
    have hmf := hwff.memory _
      (getD_mem sf.listOfNodes y default (by rw [hwff.length_nodes]; exact hy))
    have hno := hnone y hy
    unfold Node.canAccept at hno
    simp only [decide_eq_false_iff_not, not_le] at hno
    have := hgrow y
    omega

/-- Witness of C20: file `X(6)` with nodes `A(5)`, `B(4)`. -/
theorem C20_unplaced_fits_nowhere_witness :
    allocateNodesUpTo stdSort (initialPlan filesX) filesX nodesTooSmall 0 =
      some ⟨nodesTooSmall, [1], [0, 1]⟩ ∧
    ∃ sf, allocateNodes stdSort (initialPlan filesX) filesX nodesTooSmall = some sf ∧
      ∀ y, y < nodesTooSmall.length → (sf.listOfNodes.getD y default).freeMemory < 6 :=
  ⟨by decide,
    C20_unplaced_fits_nowhere stdSort stdSort_contract (initialPlan filesX) filesX
      nodesTooSmall (by unfold FreshNodes; decide) (by decide) 0
      ⟨nodesTooSmall, [1], [0, 1]⟩ (by decide)
      (by
        intro y hy
        have : y = 0 ∨ y = 1 := by
          simp only [nodesTooSmall, List.length_cons, List.length_nil] at hy; omega
        rcases this with rfl | rfl <;> decide)⟩

/-! ## The map entries that equal a node index -/

/-- The sum of `assignedSize` over the first `n` entries of the map. -/
theorem assignedUpTo_succ (listOfFiles : List File) (plan : List Nat) (k n : Nat) :
    ((((List.range (n + 1)).filter fun i => decide (plan.getD i 0 = k)).map fun i =>
        (listOfFiles.getD i default).size).sum) =
      ((((List.range n).filter fun i => decide (plan.getD i 0 = k)).map fun i =>
        (listOfFiles.getD i default).size).sum) +
      (if plan.getD n 0 = k then (listOfFiles.getD n default).size else 0) := by
  rw [List.range_succ, List.filter_append, List.map_append, List.sum_append]
  congr 1
  by_cases h : plan.getD n 0 = k
  · rw [if_pos h, List.filter_cons_of_pos (by simpa using h)]
    simp
  · rw [if_neg h, List.filter_cons_of_neg (by simpa using h)]
    simp

/-- Writing a node index into an entry that did not equal `k` adds the file's
size to the total of `k` exactly when the index written is `k`. -/
theorem assignedSize_set (listOfFiles : List File) (plan : List Nat) (k idx_f x : Nat)
    (hlt : idx_f < plan.length) (hne : plan.getD idx_f 0 ≠ k) :
    assignedSize listOfFiles (plan.set idx_f x) k =
      assignedSize listOfFiles plan k +
        (if x = k then (listOfFiles.getD idx_f default).size else 0) := by
  have key : ∀ n,
      ((((List.range n).filter fun i => decide ((plan.set idx_f x).getD i 0 = k)).map fun i =>
        (listOfFiles.getD i default).size).sum) =
      ((((List.range n).filter fun i => decide (plan.getD i 0 = k)).map fun i =>
        (listOfFiles.getD i default).size).sum) +
      (if idx_f < n ∧ x = k then (listOfFiles.getD idx_f default).size else 0) := by
    intro n
    induction n with
    | zero => simp
    | succ n ih =>
      rw [assignedUpTo_succ, assignedUpTo_succ, ih]
      by_cases hn : n = idx_f
      · subst hn
        rw [getD_set_self _ _ _ _ hlt]
        split_ifs <;> omega
      · rw [getD_set_ne _ _ _ _ _ (Ne.symm hn)]
        split_ifs <;> omega
  unfold assignedSize
  rw [List.length_set, key plan.length]
  by_cases hx : x = k
  · rw [if_pos hx, if_pos ⟨hlt, hx⟩]
  · rw [if_neg hx, if_neg (fun h => hx h.2)]

/-- A map none of whose entries equals `k` assigns nothing to `k`. -/
theorem assignedSize_replicate (listOfFiles : List File) (n v k : Nat) (hne : v ≠ k) :
    assignedSize listOfFiles (List.replicate n v) k = 0 := by
  unfold assignedSize
  have hfilter : ((List.range (List.replicate n v).length).filter fun i =>
      decide ((List.replicate n v).getD i 0 = k)) = [] := by
    rw [List.filter_eq_nil_iff]
    intro i hi
    have hi' : i < (List.replicate n v).length := List.mem_range.mp hi
    have hmem := getD_mem (List.replicate n v) i 0 hi'
    rw [(List.mem_replicate.mp hmem).2]
    simpa using hne
  rw [hfilter]
  rfl

/-- Over file indices whose entries do not yet equal `k`, the outer loop adds
to the total the map assigns to `k` exactly the sizes of the files it places
into `k`. -/
theorem assigned_eq_placed {N : Nat} (hN : N + N ≤ SIZE_MOD) (listOfFiles : List File)
    (k : Nat) :
    ∀ (l : List Nat) (s : State), WellFormed N s → l.Nodup →
      (∀ i ∈ l, i < s.distributionPlan.length ∧ s.distributionPlan.getD i 0 ≠ k) →
      ∃ s1, allocLoop listOfFiles l s = some s1 ∧
        assignedSize listOfFiles s1.distributionPlan k =
          assignedSize listOfFiles s.distributionPlan k + placedSize listOfFiles k l s := by
  intro l
  induction l with
  | nil =>
    intro s _ _ _
    exact ⟨s, rfl, rfl⟩
  | cons idx_f rest ih =>
    intro s hwf hnodup hentries
    obtain ⟨hnotin, hnodup'⟩ := List.nodup_cons.mp hnodup
    cases hscan : scanNodes s.listOfNodes s.indexes_nodes (listOfFiles.getD idx_f default)
        s.indexes_nodes.length 0 with
    | none =>
      have hstep := (allocStep_none hwf listOfFiles idx_f hscan).1
      have hch : chosenNode listOfFiles idx_f s = none := by
        unfold chosenNode; simp only [hscan]
      obtain ⟨s2, hloop, hsum⟩ := ih s hwf hnodup'
        (fun i hi => hentries i (List.mem_cons_of_mem _ hi))
      refine ⟨s2, ?_, ?_⟩
      · unfold allocLoop
        simp only [hstep]
        exact hloop
      · unfold placedSize
        simp only [hch, hstep]
        rw [if_neg (show ¬ (none = some k) from fun h => by cases h), Nat.zero_add]
        exact hsum
    | some j =>
      obtain ⟨_, _, _, _, s1, hstep, hwf1, _, hplan⟩ :=
        allocStep_some hwf hN listOfFiles idx_f j hscan
      have hch : chosenNode listOfFiles idx_f s = some (s.indexes_nodes.getD j 0) := by
        unfold chosenNode; simp only [hscan]
      obtain ⟨hlt, hne⟩ := hentries idx_f (List.mem_cons_self _ _)
      obtain ⟨s2, hloop, hsum⟩ := ih s1 hwf1 hnodup' (by
        intro i hi
        have hi' := hentries i (List.mem_cons_of_mem _ hi)
        have hii : idx_f ≠ i := fun h => hnotin (h ▸ hi)
        rw [hplan, List.length_set, getD_set_ne _ _ _ _ _ hii]
        exact hi')
      refine ⟨s2, ?_, ?_⟩
      · unfold allocLoop
        simp only [hstep]
        exact hloop
      · unfold placedSize
        simp only [hch, hstep, Option.some.injEq]
        rw [hsum, hplan, assignedSize_set listOfFiles _ k idx_f _ hlt hne]
        omega

/-- C4 (amended): for every node index `k` other than the number of files, the
value that marks an entry as unassigned, the sizes of the files whose entry in
the final map equals `k` add up to at most the size of node `k`. -/
theorem C4_assigned_within_capacity (sort : (Nat → Nat → Bool) → List Nat → List Nat)
    (hsort : StdSortContract sort) (listOfFiles : List File) (listOfNodes : List Node)
    (hfresh : FreshNodes listOfNodes) (hN : listOfNodes.length ≤ 2 ^ 63)
    (k : Nat) (hk : k < listOfNodes.length) (hne : k ≠ listOfFiles.length) :
    ∃ s, mainAllocate sort listOfFiles listOfNodes = some s ∧
      assignedSize listOfFiles s.distributionPlan k ≤ (listOfNodes.getD k default).size := by
  have hN' : listOfNodes.length + listOfNodes.length ≤ SIZE_MOD := by
    rw [SIZE_MOD_eq]; omega
  have hwf0 := initState_wf hsort (initialPlan listOfFiles) hfresh
  have hnodup : (sortedFiles sort listOfFiles).Nodup :=
    (sortedFiles_perm hsort listOfFiles).nodup_iff.mpr (List.nodup_range _)
  have hentries : ∀ i ∈ sortedFiles sort listOfFiles,
      i < (initState sort (initialPlan listOfFiles) listOfNodes).distributionPlan.length ∧
      (initState sort (initialPlan listOfFiles) listOfNodes).distributionPlan.getD i 0 ≠ k := by
    intro i hi
    have hiF : i < listOfFiles.length :=
      List.mem_range.mp ((sortedFiles_perm hsort listOfFiles).subset hi)
    have hlen : (initialPlan listOfFiles).length = listOfFiles.length := by
      unfold initialPlan; rw [List.length_replicate]
    have hmem := getD_mem (initialPlan listOfFiles) i 0 (by omega)
    unfold initialPlan at hmem
    refine ⟨by show i < (initialPlan listOfFiles).length; omega, ?_⟩
    show (initialPlan listOfFiles).getD i 0 ≠ k
    unfold initialPlan
    rw [(List.mem_replicate.mp hmem).2]
    exact Ne.symm hne
  obtain ⟨s, hs, hsum⟩ := assigned_eq_placed hN' listOfFiles k
    (sortedFiles sort listOfFiles) _ hwf0 hnodup hentries
  obtain ⟨s', hs', hwf, hocc⟩ :=
    placedSize_spec hN' listOfFiles (sortedFiles sort listOfFiles) _ hwf0
  obtain ⟨s'', hs'', _, _, _, hsz⟩ :=
    allocLoop_wf hN' listOfFiles (sortedFiles sort listOfFiles) _ hwf0
  rw [hs] at hs' hs''
  cases hs'
  cases hs''
  refine ⟨s, hs, ?_⟩
  have h0 : assignedSize listOfFiles
      (initState sort (initialPlan listOfFiles) listOfNodes).distributionPlan k = 0 :=
    assignedSize_replicate listOfFiles _ _ k (Ne.symm hne)
  have hocc0 : ((initState sort (initialPlan listOfFiles) listOfNodes).listOfNodes.getD k
      default).occupiedMemory = 0 :=
    (hfresh _ (getD_mem listOfNodes k default hk)).1
  have hmem := hwf.memory _
    (getD_mem s.listOfNodes k default (by rw [hwf.length_nodes]; exact hk))
  have hocck := hocc k hk
  have hsize : (s.listOfNodes.getD k default).size = (listOfNodes.getD k default).size :=
    (hsz k).1
  rw [h0] at hsum
  rw [hocc0] at hocck
  omega

/-- Witness of the amended C4 on scenario 1, node 0. -/
theorem C4_assigned_within_capacity_witness :
    StdSortContract stdSort ∧ FreshNodes nodesAB ∧ nodesAB.length ≤ 2 ^ 63 ∧
    0 < nodesAB.length ∧ 0 ≠ filesXY.length ∧
    ∃ s, mainAllocate stdSort filesXY nodesAB = some s ∧
      assignedSize filesXY s.distributionPlan 0 ≤ (nodesAB.getD 0 default).size :=
  ⟨stdSort_contract, freshNodes_nodesAB, by decide, by decide, by decide,
    C4_assigned_within_capacity stdSort stdSort_contract filesXY nodesAB freshNodes_nodesAB
      (by decide) 0 (by decide) (by decide)⟩

end Solution
